import Mathlib

set_option maxRecDepth 10000

/-!
Verification of the logistics max-flow repository (`task1.py`,
`task1/modules/edmonds_karp.py`, `task1/modules/logistics_network.py`).

The Python code works with dense matrices represented as lists of lists of
(signed, unbounded) integers, so matrices are embedded as `List (List Int)`.
Python indexing `m[i][j]` is total inside the algorithms because every index
ranges over `range(len(m))`; the embedding uses `getD` with default `0`/no-op
`set`, which agrees with Python on all in-range indices (the only ones the
algorithms produce for in-range `source`/`sink` arguments).
-/

namespace EK

/-- Dense integer matrix, as in the Python code (`List[List[int]]`). -/
abbrev Mat := List (List Int)

/-- `m[i][j]` read (in-range behaviour identical to Python's `m[i][j]`). -/
def getM (m : Mat) (i j : Nat) : Int :=
  (m.getD i []).getD j 0

/-- `m[i][j] = v` write (in-range behaviour identical to Python's). -/
def setM (m : Mat) (i j : Nat) (v : Int) : Mat :=
  m.set i ((m.getD i []).set j v)

/-- `m[i][j] += d`, as in the flow-update statements of `edmonds_karp`. -/
def addM (m : Mat) (i j : Nat) (d : Int) : Mat :=
  setM m i j (getM m i j + d)

/-- The matrix is square of size `n` (shape produced by the Python builders). -/
def Square (m : Mat) (n : Nat) : Prop :=
  m.length = n ∧ ∀ r ∈ m, r.length = n

/-- `[[0]*n for _ in range(n)]` — the initial flow matrix of `edmonds_karp`. -/
def zeroMat (n : Nat) : Mat :=
  List.replicate n (List.replicate n 0)

/-- Residual capacity of edge `(i,j)`:
`capacity_matrix[i][j] - flow_matrix[i][j]` (edmonds_karp.py line 43/83). -/
def residual (cap flow : Mat) (i j : Nat) : Int :=
  getM cap i j - getM flow i j

/-- `visited[v]` as a predicate on the visited list of `bfs`. -/
def Vis (visited : List Bool) (v : Nat) : Prop :=
  visited.getD v false = true

instance (visited : List Bool) (v : Nat) : Decidable (Vis visited v) := by
  unfold Vis; infer_instance

/--
Inner `for neighbor in range(num_nodes)` loop of `bfs` (edmonds_karp.py
lines 42-49), scanning the remaining neighbour list `js` of `current`.
Returns the updated `(visited, parent, queue, found)`; `found = true` is the
early `return True` taken when the sink is first reached.
-/
def bfsScan (cap flow : Mat) (sink current : Nat) :
    List Nat → List Bool → List Nat → List Nat → List Bool × List Nat × List Nat × Bool
  | [], visited, parent, queue => (visited, parent, queue, false)
  | j :: js, visited, parent, queue =>
    if visited.getD j false = false ∧ 0 < residual cap flow current j then
      let visited1 := visited.set j true
      let parent1 := parent.set j current
      if j = sink then (visited1, parent1, queue, true)
      else bfsScan cap flow sink current js visited1 parent1 (queue ++ [j])
    else bfsScan cap flow sink current js visited parent queue

/--
Outer `while queue:` loop of `bfs` (edmonds_karp.py lines 39-49).  The loop
always terminates because every node is enqueued at most once; `fuel` is an
upper bound on the number of `popleft` operations, proved sufficient below
(`fuel = 0` can only be reached with an empty queue, where the Python loop
also stops and returns `False`).
-/
def bfsLoop (cap flow : Mat) (sink : Nat) :
    Nat → List Nat → List Bool → List Nat → List Nat × Bool
  | 0, _, _, parent => (parent, false)
  | _ + 1, [], _, parent => (parent, false)
  | fuel + 1, current :: rest, visited, parent =>
    match bfsScan cap flow sink current (List.range cap.length) visited parent rest with
    | (_, parent1, _, true) => (parent1, true)
    | (visited1, parent1, queue1, false) => bfsLoop cap flow sink fuel queue1 visited1 parent1

/--
`bfs(capacity_matrix, flow_matrix, source, sink, parent)` (edmonds_karp.py
lines 19-51).  Python mutates `parent` in place; the embedding returns the
updated parent list together with the `bool` result.
-/
def bfs (cap flow : Mat) (source sink : Nat) (parent : List Nat) : List Nat × Bool :=
  let n := cap.length
  bfsLoop cap flow sink (n + 1) [source] ((List.replicate n false).set source true) parent

/--
The `while current_node != source` parent-chain walks of `edmonds_karp`
(lines 79-88): follows `parent` from `current` back to `source`, returning
the visited-order path `[source, ..., current]` (the Python code builds the
reversed list and calls `path.reverse()`; the result is the same list).
`none` means the chain did not reach the source within `fuel` steps — this
cannot happen for a parent list produced by a successful `bfs`, which is
proved below.
-/
def tracePath (parent : List Nat) (source : Nat) : Nat → Nat → Option (List Nat)
  | 0, _ => none
  | fuel + 1, current =>
    if current = source then some [current]
    else
      match tracePath parent source fuel (parent.getD current 0) with
      | none => none
      | some p => some (p ++ [current])

/-- Residual capacities of consecutive edges of a path (the values whose
minimum the first `while` loop of `edmonds_karp` accumulates). -/
def pathResiduals (cap flow : Mat) : List Nat → List Int
  | a :: b :: rest => residual cap flow a b :: pathResiduals cap flow (b :: rest)
  | _ => []

/-- Minimum of a list of integers.  `edmonds_karp` starts from `float('Inf')`
and folds `min`; on the non-empty residual list of an augmenting path this is
that list's minimum (the `[]` value is never used). -/
def listMin : List Int → Int
  | [] => 0
  | [x] => x
  | x :: y :: rest => min x (listMin (y :: rest))

/--
The flow-update loop of `edmonds_karp` (lines 91-96): for every consecutive
edge `(a, b)` of the augmenting path, `flow[a][b] += f` and `flow[b][a] -= f`.
(Python walks the same edge set from sink to source via `parent`; the updates
touch pairwise distinct cells for the simple paths produced by `bfs`, and
commute in any case.)
-/
def augment (f : Int) : Mat → List Nat → Mat
  | flow, a :: b :: rest => augment f (addM (addM flow a b f) b a (-f)) (b :: rest)
  | flow, _ => flow

/-- One recorded entry of `path_history`: the augmenting path and its
bottleneck flow (`{'path': path, 'flow': path_flow}`). -/
abbrev PathRec := List Nat × Int

/--
The `while bfs(...)` loop of `edmonds_karp` (lines 75-105).  Each iteration:
run `bfs`; if it fails, stop; otherwise extract the path through `parent`,
take the bottleneck residual, push flow along the path, record the path and
add the bottleneck to `max_flow`.  `fuel` bounds the number of iterations and
is proved sufficient below (each iteration adds at least `1` to `max_flow`,
which never exceeds the capacity out of the source); the `fuel = 0` and
failed-trace branches return the current state and are proved unreachable for
the stated preconditions.
-/
def ekLoop (cap : Mat) (source sink : Nat) :
    Nat → Mat → List Nat → Int → List PathRec → Int × Mat × List PathRec
  | 0, flow, _, maxFlow, hist => (maxFlow, flow, hist)
  | fuel + 1, flow, parent, maxFlow, hist =>
    match bfs cap flow source sink parent with
    | (_, false) => (maxFlow, flow, hist)
    | (parent1, true) =>
      match tracePath parent1 source (cap.length + 1) sink with
      | none => (maxFlow, flow, hist)
      | some p =>
        let f := listMin (pathResiduals cap flow p)
        ekLoop cap source sink fuel (augment f flow p) parent1 (maxFlow + f)
          (hist ++ [(p, f)])

/-- Total capacity leaving `source` — the bound on the number of
augmenting iterations used to size the loop fuel. -/
def srcCapSum (cap : Mat) (source : Nat) : Int :=
  ((List.range cap.length).map fun j => getM cap source j).sum

/-- Loop fuel for `ekLoop`: one more than the total capacity out of the
source (non-negative capacities make this an iteration bound). -/
def ekFuel (cap : Mat) (source : Nat) : Nat :=
  (srcCapSum cap source).toNat + 1

/--
`edmonds_karp(capacity_matrix, source, sink)` (edmonds_karp.py lines 54-107):
returns `(max_flow, flow_matrix, path_history)`.  `flow_matrix` starts as the
`n × n` zero matrix and `parent` as a sentinel list (Python uses `[-1]*n`,
an always-invalid marker; entries are never read before being written by the
`bfs` round that precedes each read, so the sentinel value is irrelevant —
the embedding uses `n`, an out-of-range index, as the sentinel).
-/
def edmondsKarp (cap : Mat) (source sink : Nat) : Int × Mat × List PathRec :=
  let n := cap.length
  ekLoop cap source sink (ekFuel cap source) (zeroMat n) (List.replicate n n) 0 []

/-! ### Specification-side notions: residual reachability, paths, cuts -/

/-- One residual step: edge `(a, b)` is traversable when `b` is a real node
and the residual capacity is positive (the BFS neighbour condition). -/
def stepRel (cap flow : Mat) (a b : Nat) : Prop :=
  b < cap.length ∧ 0 < residual cap flow a b

/-- `v` is reachable from `s` in the residual graph. -/
def Reach (cap flow : Mat) (s v : Nat) : Prop :=
  Relation.ReflTransGen (stepRel cap flow) s v

/-- Every consecutive edge of the node list has positive residual capacity
(an augmenting path, once the endpoints are fixed). -/
def PathOk (cap flow : Mat) (p : List Nat) : Prop :=
  ∀ e ∈ p.zip p.tail, 0 < residual cap flow e.1 e.2

/-- A valid augmenting path from `s` to `t`: starts at `s`, ends at `t`,
is simple, stays inside the node range, and has positive residuals. -/
def GoodPath (cap flow : Mat) (n s t : Nat) (p : List Nat) : Prop :=
  p.head? = some s ∧ p.getLast? = some t ∧ p.Nodup ∧ (∀ v ∈ p, v < n) ∧
    PathOk cap flow p

/-- `p` has the fewest edges among all augmenting `s`-`t` paths for the
current flow (the Edmonds-Karp shortest-path tie-break). -/
def Shortest (cap flow : Mat) (s t : Nat) (p : List Nat) : Prop :=
  ∀ q, q.head? = some s → q.getLast? = some t → PathOk cap flow q →
    p.length ≤ q.length

/-- Capacity of the cut `(S, V \ S)` over the `n` real nodes. -/
def cutCap (cap : Mat) (n : Nat) (S : Finset Nat) : Int :=
  ∑ i ∈ (Finset.range n).filter (· ∈ S),
    ∑ j ∈ (Finset.range n).filter (· ∉ S), getM cap i j

/-- Signed flow out of node `i` (row sum over the `n` real nodes). -/
def rowSum (m : Mat) (n i : Nat) : Int :=
  ∑ j ∈ Finset.range n, getM m i j

/-- Signed flow into node `j` (column sum over the `n` real nodes). -/
def colSum (m : Mat) (n j : Nat) : Int :=
  ∑ i ∈ Finset.range n, getM m i j

/-- A well-formed capacity matrix: square with non-negative entries
(the data-model contract for capacity matrices). -/
def CapOk (cap : Mat) (n : Nat) : Prop :=
  Square cap n ∧ ∀ i < n, ∀ j < n, (0:Int) ≤ getM cap i j

instance (m : Mat) (n : Nat) : Decidable (Square m n) := by
  unfold Square; infer_instance

instance (cap : Mat) (n : Nat) : Decidable (CapOk cap n) := by
  unfold CapOk; infer_instance

/-- Antisymmetric bookkeeping `flow[i][j] == -flow[j][i]`. -/
def Antisym (m : Mat) : Prop :=
  ∀ i j, getM m i j = -getM m j i

/-- Every entry of the flow matrix is bounded by the capacity entry. -/
def FlowLE (cap flow : Mat) (n : Nat) : Prop :=
  ∀ i < n, ∀ j < n, getM flow i j ≤ getM cap i j

/-- Flow conservation: nodes other than `s` and `t` have zero net outflow. -/
def Conserved (flow : Mat) (n s t : Nat) : Prop :=
  ∀ v < n, v ≠ s → v ≠ t → rowSum flow n v = 0

/-- The solver's loop invariant over `(flow, max_flow)`. -/
def EkInv (cap flow : Mat) (n s t : Nat) (value : Int) : Prop :=
  Square flow n ∧ Antisym flow ∧ FlowLE cap flow n ∧ Conserved flow n s t ∧
    rowSum flow n s = value

/-- Replay one recorded augmentation on a flow matrix. -/
def applyRec (m : Mat) (r : PathRec) : Mat :=
  augment r.2 m r.1

/-- The flow matrix after replaying the first `hist` recorded augmentations
starting from the all-zero matrix (state of the solver after those
iterations). -/
def flowAfter (n : Nat) (hist : List PathRec) : Mat :=
  hist.foldl applyRec (zeroMat n)

/-- Each recorded `(path, flow)` entry is a valid augmenting path for the
flow state at its iteration, with `flow` the path's bottleneck residual,
which is at least `1`. -/
def ReplayOk (cap : Mat) (n s t : Nat) : Mat → List PathRec → Prop
  | _, [] => True
  | flow, r :: rest =>
    r.2 = listMin (pathResiduals cap flow r.1) ∧ 1 ≤ r.2 ∧
      GoodPath cap flow n s t r.1 ∧ ReplayOk cap n s t (applyRec flow r) rest

/-- Each recorded path is a shortest augmenting path for the flow state at
its iteration. -/
def ReplayShort (cap : Mat) (s t : Nat) : Mat → List PathRec → Prop
  | _, [] => True
  | flow, r :: rest =>
    Shortest cap flow s t r.1 ∧ ReplayShort cap s t (applyRec flow r) rest

/-- Number of visited nodes (`True` entries of the `visited` list). -/
def cntVisited (visited : List Bool) : Nat := visited.count true

/-- Length (in nodes) of the parent-chain path from the source to `v`
(the BFS-tree depth bookkeeping used in the shortest-path proof). -/
def depN (parent : List Nat) (source n v : Nat) : Nat :=
  ((tracePath parent source (n + 1) v).getD []).length

/--
Invariant of the `while queue:` loop of `bfs`: list shapes, the source is
visited, queue members are visited in-range nodes, the sink is unvisited
(`bfs` returns as soon as it is reached), every visited node carries a valid
simple residual path from the source recoverable through `parent`, every
visited node is either still queued or fully scanned, queue depths are
non-decreasing and spread over at most two BFS levels, and every visited
node's recorded depth is minimal over all residual paths reaching it.
-/
structure BfsInv (cap flow : Mat) (n source sink : Nat)
    (queue : List Nat) (visited : List Bool) (parent : List Nat) : Prop where
  vlen : visited.length = n
  plen : parent.length = n
  vsrc : Vis visited source
  hq : ∀ x ∈ queue, Vis visited x ∧ x < n
  hsink : ¬ Vis visited sink
  hpath : ∀ v, Vis visited v → ∃ p, tracePath parent source p.length v = some p ∧
    p.head? = some source ∧ p.getLast? = some v ∧ p.Nodup ∧
    (∀ y ∈ p, y < n ∧ Vis visited y) ∧ PathOk cap flow p
  hclosed : ∀ u, Vis visited u → u ∈ queue ∨
    (∀ j, j < n → 0 < residual cap flow u j → Vis visited j)
  hord : queue.Pairwise fun u w => depN parent source n u ≤ depN parent source n w
  hspread : ∀ c r, queue = c :: r →
    ∀ x ∈ queue, depN parent source n x ≤ depN parent source n c + 1
  hmin : ∀ v, Vis visited v → ∀ q, q.head? = some source → q.getLast? = some v →
    PathOk cap flow q → depN parent source n v ≤ q.length

end EK

namespace Logistics

open EK

/-! ### `logistics_network.py` / `task1.py`: network construction -/

/-- The two supply terminals (`build_logistics_network`). -/
def terminals : List String := ["Термінал 1", "Термінал 2"]

/-- The four intermediate warehouses. -/
def warehouses : List String := ["Склад 1", "Склад 2", "Склад 3", "Склад 4"]

/-- The fourteen stores (`f"Магазин {i}" for i in range(1, 15)`). -/
def stores : List String :=
  (List.range 14).map fun i => "Магазин " ++ toString (i + 1)

/-- `nodes = terminals + warehouses + stores`. -/
def nodes : List String := terminals ++ warehouses ++ stores

/-- `node_indices[name]` (the names are pairwise distinct, so dictionary
lookup is the index of the first occurrence). -/
def nodeIdx (name : String) : Nat := nodes.indexOf name

/-- The 20 edges with capacities of `build_logistics_network`. -/
def edges : List (String × String × Int) :=
  [("Термінал 1", "Склад 1", 25), ("Термінал 1", "Склад 2", 20),
   ("Термінал 1", "Склад 3", 15), ("Термінал 2", "Склад 3", 15),
   ("Термінал 2", "Склад 4", 30), ("Термінал 2", "Склад 2", 10),
   ("Склад 1", "Магазин 1", 15), ("Склад 1", "Магазин 2", 10),
   ("Склад 1", "Магазин 3", 20), ("Склад 2", "Магазин 4", 15),
   ("Склад 2", "Магазин 5", 10), ("Склад 2", "Магазин 6", 25),
   ("Склад 3", "Магазин 7", 20), ("Склад 3", "Магазин 8", 15),
   ("Склад 3", "Магазин 9", 10), ("Склад 4", "Магазин 10", 20),
   ("Склад 4", "Магазин 11", 10), ("Склад 4", "Магазин 12", 15),
   ("Склад 4", "Магазин 13", 5), ("Склад 4", "Магазин 14", 10)]

/-- The capacity matrix built by `build_logistics_network`: start from the
zero matrix and write each edge capacity. -/
def capacityMatrix : Mat :=
  edges.foldl (fun m e => setM m (nodeIdx e.1) (nodeIdx e.2.1) e.2.2)
    (zeroMat nodes.length)

/-- Python `lst[j] = v` on a row: fails with `IndexError` when `j` is out of
range (used where the spec's failure claims are about this very behaviour). -/
def setRowChecked (l : List Int) (j : Nat) (v : Int) : Option (List Int) :=
  if j < l.length then some (l.set j v) else none

/-- Python `m[i][j] = v`: row lookup may fail, then the row write may fail. -/
def setMChecked (m : Mat) (i j : Nat) (v : Int) : Option Mat :=
  match m.get? i with
  | none => none
  | some row =>
    match setRowChecked row j v with
    | none => none
    | some row1 => some (m.set i row1)

/--
The super-node augmentation inlined in `task1.py` `main` (lines 36-52),
with the index sets of the wired terminals and stores as parameters: build
an `(n+2) × (n+2)` zero matrix, copy the original `n × n` entries, then set
`extended[super_source][t] = 100` for each terminal index `t` and
`extended[s][super_sink] = 100` for each store index `s`.  The copy loop
only touches in-range cells; the two wiring loops follow Python's indexing
and fail (`IndexError`) on an out-of-range index.
-/
def extendCapacity (cap : Mat) (terminalIdxs storeIdxs : List Nat) : Option Mat :=
  let n := cap.length
  let base :=
    (List.range n).foldl
      (fun m i => (List.range n).foldl (fun m2 j => setM m2 i j (getM cap i j)) m)
      (zeroMat (n + 2))
  let afterT :=
    terminalIdxs.foldl (fun acc t => acc.bind fun m => setMChecked m n t 100)
      (some base)
  storeIdxs.foldl (fun acc s => acc.bind fun m => setMChecked m s (n + 1) 100)
    afterT

/-- Indices of the wired terminals (`node_indices["Термінал ..."]`). -/
def terminalIdxs : List Nat := terminals.map nodeIdx

/-- Indices of the wired stores. -/
def storeIdxs : List Nat := stores.map nodeIdx

/-- The extended capacity matrix actually built by `main` (its construction
never fails, which is proved below). -/
def extendedCapacity : Mat :=
  (extendCapacity capacityMatrix terminalIdxs storeIdxs).getD []

/-- Sum of the capacities of all designated terminal edges (edges leaving a
wired terminal) and destination edges (edges entering a wired store) in the
original network — the quantity the spec says every synthetic edge capacity
must exceed. -/
def designatedCapSum : Int :=
  (terminalIdxs.map fun t =>
      ((List.range nodes.length).map fun j => getM capacityMatrix t j).sum).sum +
  (storeIdxs.map fun s =>
      ((List.range nodes.length).map fun i => getM capacityMatrix i s).sum).sum

/-! ### `analyze_network` warehouse utilization (`logistics_network.py` 177-200) -/

/-- Python 3 `round` on an exact rational value: round half to even. -/
def pyRound (q : ℚ) : Int :=
  let f : Int := ⌊q⌋
  if q - f < 1/2 then f
  else if 1/2 < q - f then f + 1
  else if f % 2 = 0 then f else f + 1

/-- One warehouse record of `analysis["warehouse_utilization"]`. -/
structure WarehouseRecord where
  inflow : Int
  outflow : Int
  in_capacity : Int
  out_capacity : Int
  in_utilization : Int
  out_utilization : Int
deriving Repr, DecidableEq

/-- `sum(flow_matrix[i][w_idx] for i in range(len(nodes)) if i != w_idx)`. -/
def sumInto (m : Mat) (numNodes w : Nat) : Int :=
  (((List.range numNodes).filter fun i => i != w).map fun i => getM m i w).sum

/-- `sum(flow_matrix[w_idx][j] for j in range(len(nodes)) if j != w_idx)`. -/
def sumOutOf (m : Mat) (numNodes w : Nat) : Int :=
  (((List.range numNodes).filter fun j => j != w).map fun j => getM m w j).sum

/-- The record `analyze_network` builds for the warehouse with index `w`
(`numNodes = len(nodes)`); utilization percentages use Python's `round` and
are `0` when the corresponding capacity sum is not positive. -/
def warehouseRecord (cap flow : Mat) (numNodes w : Nat) : WarehouseRecord :=
  let inflow := sumInto flow numNodes w
  let outflow := sumOutOf flow numNodes w
  let inCap := sumInto cap numNodes w
  let outCap := sumOutOf cap numNodes w
  { inflow := inflow
    outflow := outflow
    in_capacity := inCap
    out_capacity := outCap
    in_utilization :=
      if 0 < inCap then pyRound ((inflow : ℚ) / (inCap : ℚ) * 100) else 0
    out_utilization :=
      if 0 < outCap then pyRound ((outflow : ℚ) / (outCap : ℚ) * 100) else 0 }

/-- The `warehouse_utilization` dictionary of `analyze_network`, keyed by
warehouse name. -/
def warehouseUtilization (cap flow : Mat) : List (String × WarehouseRecord) :=
  warehouses.map fun w => (w, warehouseRecord cap flow nodes.length (nodeIdx w))

/-! Specification-side formulas for the per-hub record (§4.4 of the spec):
sums over all other nodes, written independently as `Finset` sums. -/

/-- Spec: "inflow = sum of flow into the node from all other nodes". -/
def specInflow (flow : Mat) (numNodes w : Nat) : Int :=
  ∑ i ∈ (Finset.range numNodes).erase w, getM flow i w

/-- Spec: "outflow = sum of flow out". -/
def specOutflow (flow : Mat) (numNodes w : Nat) : Int :=
  ∑ j ∈ (Finset.range numNodes).erase w, getM flow w j

/-- Spec: "utilization percentage = `round(inflow / in_capacity * 100)`,
defined as `0` when capacity sum is `0`". -/
def specUtilization (inflow inCap : Int) : Int :=
  if inCap = 0 then 0 else pyRound ((inflow : ℚ) / (inCap : ℚ) * 100)

end Logistics

/-! ## Lemmas about the matrix primitives -/

namespace EK

theorem getM_eq (m : Mat) (i j : Nat) : getM m i j = (m[i]?.getD [])[j]?.getD 0 := by
  simp [getM, List.getD_eq_getElem?_getD]

theorem getM_of_oor {m : Mat} {n : Nat} (hsq : Square m n) {i j : Nat}
    (h : n ≤ i ∨ n ≤ j) : getM m i j = 0 := by
  rcases hsq with ⟨hlen, hrows⟩
  rw [getM_eq]
  rcases Nat.lt_or_ge i n with hi | hi
  · have hj : n ≤ j := h.resolve_left (by omega)
    have hmem : m[i]?.getD [] ∈ m := by
      have h1 : m[i]? = some m[i] := List.getElem?_eq_getElem (by omega)
      rw [h1]; simpa using List.getElem_mem _
    have h2 : (m[i]?.getD []).length ≤ j := by rw [hrows _ hmem]; omega
    rw [List.getElem?_eq_none h2]; rfl
  · have h1 : m[i]? = none := List.getElem?_eq_none (by omega)
    rw [h1]; simp

theorem square_zeroMat (n : Nat) : Square (zeroMat n) n := by
  constructor
  · simp [zeroMat]
  · intro r hr
    rw [List.eq_of_mem_replicate hr]; simp

theorem getM_zeroMat (n i j : Nat) : getM (zeroMat n) i j = 0 := by
  rw [getM_eq, zeroMat]
  rcases Nat.lt_or_ge i n with hi | hi
  · rw [List.getElem?_replicate, if_pos hi]
    rcases Nat.lt_or_ge j n with hj | hj
    · simp [List.getElem?_replicate, hj]
    · simp [List.getElem?_replicate, Nat.not_lt.2 hj]
  · rw [List.getElem?_replicate, if_neg (by omega)]; simp

theorem square_setM {m : Mat} {n : Nat} (hsq : Square m n) (i j : Nat) (v : Int) :
    Square (setM m i j v) n := by
  rcases hsq with ⟨hlen, hrows⟩
  refine ⟨by simp [setM, hlen], ?_⟩
  intro r hr
  rcases Nat.lt_or_ge i m.length with hi | hi
  · rcases List.mem_or_eq_of_mem_set hr with h | h
    · exact hrows _ h
    · subst h
      rw [List.length_set]
      apply hrows
      have h1 : m[i]? = some m[i] := List.getElem?_eq_getElem hi
      rw [List.getD_eq_getElem?_getD, h1]; simpa using List.getElem_mem _
  · rw [setM, List.set_eq_of_length_le hi] at hr
    exact hrows _ hr

theorem square_addM {m : Mat} {n : Nat} (hsq : Square m n) (i j : Nat) (v : Int) :
    Square (addM m i j v) n := square_setM hsq i j _

theorem getM_setM {m : Mat} {n : Nat} (hsq : Square m n) (i j : Nat) (v : Int)
    (i' j' : Nat) :
    getM (setM m i j v) i' j' =
      if i' = i ∧ j' = j ∧ i < n ∧ j < n then v else getM m i' j' := by
  have hlen := hsq.1
  rcases Nat.lt_or_ge i n with hi | hi
  · have hrowmem : m.getD i [] ∈ m := by
      have h1 : m[i]? = some m[i] := List.getElem?_eq_getElem (by omega)
      rw [List.getD_eq_getElem?_getD, h1]; simpa using List.getElem_mem _
    have hrowlen : (m.getD i []).length = n := hsq.2 _ hrowmem
    have hget : m[i]? = some (m.getD i []) := by
      rw [List.getD_eq_getElem?_getD]
      cases h : m[i]? with
      | none => exact absurd (List.getElem?_eq_none_iff.1 h) (by omega)
      | some r => rfl
    rw [setM, getM_eq, getM_eq]
    by_cases hii : i' = i
    · subst hii
      rw [List.getElem?_set_self (by omega), Option.getD_some, hget, Option.getD_some,
        List.getElem?_set]
      by_cases hjj : j = j'
      · rw [if_pos hjj]
        subst hjj
        by_cases hj : j < n
        · rw [if_pos (by omega)]
          simp [hi, hj]
        · rw [if_neg (by omega), List.getElem?_eq_none (l := m.getD i' []) (by omega)]
          simp [hi, hj]
      · rw [if_neg hjj, if_neg (by tauto)]
    · rw [List.getElem?_set_ne (by omega), if_neg (by tauto)]
  · rw [setM, List.set_eq_of_length_le (by omega), if_neg (by omega)]

theorem getM_addM {m : Mat} {n : Nat} (hsq : Square m n) (i j : Nat) (d : Int)
    (i' j' : Nat) :
    getM (addM m i j d) i' j' =
      if i' = i ∧ j' = j ∧ i < n ∧ j < n then getM m i j + d else getM m i' j' := by
  rw [addM, getM_setM hsq]

end EK

/-! ## Lemmas about paths, bottlenecks and `augment` -/

namespace EK

theorem listMin_le_of_mem {l : List Int} {x : Int} (hx : x ∈ l) : listMin l ≤ x := by
  induction l with
  | nil => cases hx
  | cons a l ih =>
    cases l with
    | nil =>
      rcases List.mem_singleton.1 hx with rfl
      exact le_refl _
    | cons b l2 =>
      rw [listMin]
      rcases List.mem_cons.1 hx with rfl | hx2
      · exact min_le_left _ _
      · exact le_trans (min_le_right _ _) (ih hx2)

theorem one_le_listMin {l : List Int} (hne : l ≠ []) (h : ∀ x ∈ l, 1 ≤ x) :
    1 ≤ listMin l := by
  induction l with
  | nil => cases hne rfl
  | cons a l ih =>
    cases l with
    | nil => exact h a (by simp)
    | cons b l2 =>
      rw [listMin]
      refine le_min (h a (by simp)) (ih (by simp) ?_)
      intro x hx
      exact h x (List.mem_cons_of_mem _ hx)

theorem pathResiduals_eq_map (cap flow : Mat) (p : List Nat) :
    pathResiduals cap flow p = (p.zip p.tail).map fun e => residual cap flow e.1 e.2 := by
  induction p with
  | nil => rfl
  | cons a l ih =>
    cases l with
    | nil => rfl
    | cons b l2 =>
      rw [pathResiduals]
      simpa using ih

theorem zip_tail_concat {p : List Nat} {u : Nat} (h : p.getLast? = some u) (v : Nat) :
    (p ++ [v]).zip (p ++ [v]).tail = p.zip p.tail ++ [(u, v)] := by
  induction p generalizing u with
  | nil => cases h
  | cons a l ih =>
    cases l with
    | nil =>
      simp at h
      subst h
      rfl
    | cons b l2 =>
      have h2 : (b :: l2).getLast? = some u := by
        rw [List.getLast?_cons_cons] at h; exact h
      have h3 := ih h2
      simp only [List.cons_append, List.zip_cons_cons, List.tail_cons] at *
      rw [h3]

theorem mem_zip_tail {p : List Nat} {x y : Nat} (h : (x, y) ∈ p.zip p.tail) :
    x ∈ p ∧ y ∈ p.tail :=
  List.of_mem_zip h

theorem snd_mem_tail {a : Nat} {l : List Nat} {x y : Nat}
    (h : (x, y) ∈ (a :: l).zip l) : y ∈ l :=
  (List.of_mem_zip h).2

theorem no_rev_edge {p : List Nat} (hnd : p.Nodup) {i j : Nat}
    (hij : (i, j) ∈ p.zip p.tail) : (j, i) ∉ p.zip p.tail := by
  induction p with
  | nil => cases hij
  | cons a l ih =>
    cases l with
    | nil => cases hij
    | cons b l2 =>
      have hna : a ∉ b :: l2 := (List.nodup_cons.1 hnd).1
      have hndt : (b :: l2).Nodup := (List.nodup_cons.1 hnd).2
      simp only [List.tail_cons, List.zip_cons_cons, List.mem_cons] at hij ⊢
      rcases hij with h1 | h1
      · -- (i, j) = (a, b)
        simp only [Prod.mk.injEq] at h1
        obtain ⟨rfl, rfl⟩ := h1
        rintro (h2 | h2)
        · simp only [Prod.mk.injEq] at h2
          exact absurd (show i ∈ j :: l2 by rw [h2.1]; exact List.mem_cons_self _ _) hna
        · exact hna (List.mem_cons_of_mem _ (snd_mem_tail h2))
      · -- (i, j) in the tail edges, so j ∈ l2
        have hjl : j ∈ l2 := snd_mem_tail h1
        rintro (h2 | h2)
        · simp only [Prod.mk.injEq] at h2
          exact hna (by rw [← h2.1]; exact List.mem_cons_of_mem _ hjl)
        · exact ih hndt h1 h2

theorem ite_or_add {P Q : Prop} [Decidable P] [Decidable Q] (h : ¬(P ∧ Q)) (f : Int) :
    (if P ∨ Q then f else 0) = (if P then f else 0) + (if Q then f else 0) := by
  by_cases hp : P
  · rw [if_pos (Or.inl hp), if_pos hp, if_neg fun hq => h ⟨hp, hq⟩]
    ring
  · by_cases hq : Q
    · rw [if_pos (Or.inr hq), if_neg hp, if_pos hq]
      ring
    · rw [if_neg (by tauto), if_neg hp, if_neg hq]
      ring

theorem square_augment {flow : Mat} {n : Nat} (hsq : Square flow n) (f : Int)
    (p : List Nat) : Square (augment f flow p) n := by
  induction p generalizing flow with
  | nil => exact hsq
  | cons a l ih =>
    cases l with
    | nil => exact hsq
    | cons b l2 =>
      rw [augment]
      exact ih (square_addM (square_addM hsq _ _ _) _ _ _)

end EK

namespace EK

theorem getM_addM2 {flow : Mat} {n : Nat} (hsq : Square flow n) {a b : Nat}
    (hab : a ≠ b) (f : Int) (i j : Nat) :
    getM (addM (addM flow a b f) b a (-f)) i j =
      getM flow i j + (if i = a ∧ j = b ∧ a < n ∧ b < n then f else 0)
        - (if i = b ∧ j = a ∧ b < n ∧ a < n then f else 0) := by
  rw [getM_addM (square_addM hsq a b f), getM_addM hsq, getM_addM hsq]
  by_cases h2 : i = b ∧ j = a ∧ b < n ∧ a < n
  · rw [if_pos h2, if_neg (fun hc => hab hc.1.symm),
      if_neg (fun hc => hab (hc.1.symm.trans h2.1)), if_pos h2, h2.1, h2.2.1]
    ring
  · rw [if_neg h2, if_neg h2]
    by_cases h1 : i = a ∧ j = b ∧ a < n ∧ b < n
    · rw [if_pos h1, if_pos h1, h1.1, h1.2.1]
      ring
    · rw [if_neg h1, if_neg h1]
      ring

theorem getM_addM_cancel {flow : Mat} {n : Nat} (hsq : Square flow n) (a : Nat)
    (f : Int) (i j : Nat) :
    getM (addM (addM flow a a f) a a (-f)) i j = getM flow i j := by
  rw [getM_addM (square_addM hsq a a f), getM_addM hsq]
  by_cases h : i = a ∧ j = a ∧ a < n ∧ a < n
  · obtain ⟨rfl, rfl, h3, -⟩ := h
    rw [if_pos ⟨rfl, rfl, h3, h3⟩, if_pos ⟨rfl, rfl, h3, h3⟩]
    ring
  · rw [if_neg h, getM_addM hsq, if_neg h]

theorem antisym_addM2 {flow : Mat} {n : Nat} (hsq : Square flow n) (hA : Antisym flow)
    (a b : Nat) (f : Int) :
    Antisym (addM (addM flow a b f) b a (-f)) := by
  intro i j
  by_cases hab : a = b
  · subst hab
    rw [getM_addM_cancel hsq, getM_addM_cancel hsq]
    exact hA i j
  · rw [getM_addM2 hsq hab, getM_addM2 hsq hab]
    by_cases h1 : i = a ∧ j = b ∧ a < n ∧ b < n
    · rw [if_pos h1, if_neg (fun hc => hab (h1.1.symm.trans hc.1)),
        if_neg (fun hc => hab (h1.1.symm.trans hc.2.1)),
        if_pos ⟨h1.2.1, h1.1, h1.2.2.2, h1.2.2.1⟩]
      linarith [hA i j]
    · by_cases h2 : i = b ∧ j = a ∧ b < n ∧ a < n
      · rw [if_neg h1, if_pos h2, if_pos ⟨h2.2.1, h2.1, h2.2.2.2, h2.2.2.1⟩,
          if_neg (fun hc => hab (hc.2.1.symm.trans h2.1))]
        linarith [hA i j]
      · rw [if_neg h1, if_neg h2,
          if_neg (fun hc => h2 ⟨hc.2.1, hc.1, hc.2.2.2, hc.2.2.1⟩),
          if_neg (fun hc => h1 ⟨hc.2.1, hc.1, hc.2.2.2, hc.2.2.1⟩)]
        linarith [hA i j]

theorem augment_antisym {flow : Mat} {n : Nat} (hsq : Square flow n)
    (hA : Antisym flow) (f : Int) (p : List Nat) :
    Antisym (augment f flow p) := by
  induction p generalizing flow with
  | nil => exact hA
  | cons a l ih =>
    cases l with
    | nil => exact hA
    | cons b l2 =>
      rw [augment]
      exact ih (square_addM (square_addM hsq _ _ _) _ _ _) (antisym_addM2 hsq hA a b f)

theorem getM_augment {flow : Mat} {n : Nat} (hsq : Square flow n) {p : List Nat}
    (hnd : p.Nodup) (hin : ∀ v ∈ p, v < n) (f : Int) (i j : Nat) :
    getM (augment f flow p) i j = getM flow i j
      + (if (i, j) ∈ p.zip p.tail then f else 0)
      - (if (j, i) ∈ p.zip p.tail then f else 0) := by
  induction p generalizing flow with
  | nil => simp [augment]
  | cons a l ih =>
    cases l with
    | nil => simp [augment]
    | cons b l2 =>
      have hna : a ∉ b :: l2 := (List.nodup_cons.1 hnd).1
      have hndt : (b :: l2).Nodup := (List.nodup_cons.1 hnd).2
      have hab : a ≠ b := fun h => hna (h ▸ List.mem_cons_self _ _)
      have han : a < n := hin a (List.mem_cons_self _ _)
      have hbn : b < n := hin b (List.mem_cons_of_mem _ (List.mem_cons_self _ _))
      rw [augment,
        ih (square_addM (square_addM hsq _ _ _) _ _ _) hndt
          (fun v hv => hin v (List.mem_cons_of_mem _ hv)),
        getM_addM2 hsq hab]
      simp only [List.zip_cons_cons, List.tail_cons, List.mem_cons, Prod.mk.injEq]
      have hx1 : ¬((i = a ∧ j = b) ∧ (i, j) ∈ (b :: l2).zip l2) := by
        rintro ⟨⟨rfl, rfl⟩, hm⟩
        exact hna (List.of_mem_zip hm).1
      have hx2 : ¬((j = a ∧ i = b) ∧ (j, i) ∈ (b :: l2).zip l2) := by
        rintro ⟨⟨rfl, rfl⟩, hm⟩
        exact (List.nodup_cons.1 hndt).1 (snd_mem_tail hm)
      rw [ite_or_add hx1 f, ite_or_add hx2 f]
      simp only [han, hbn, and_true]
      simp only [show (j = a ∧ i = b) ↔ (i = b ∧ j = a) from and_comm]
      ring

theorem rowSum_addM2 {flow : Mat} {n : Nat} (hsq : Square flow n) {a b : Nat}
    (hab : a ≠ b) (han : a < n) (hbn : b < n) (f : Int) (v : Nat) :
    rowSum (addM (addM flow a b f) b a (-f)) n v =
      rowSum flow n v + (if v = a then f else 0) - (if v = b then f else 0) := by
  unfold rowSum
  rw [Finset.sum_congr rfl fun j _ => getM_addM2 hsq hab f v j]
  rw [Finset.sum_sub_distrib, Finset.sum_add_distrib]
  have h1 : (∑ j ∈ Finset.range n, if v = a ∧ j = b ∧ a < n ∧ b < n then f else 0)
      = if v = a then f else 0 := by
    by_cases hv : v = a
    · simp only [hv, han, hbn, true_and, and_true]
      rw [Finset.sum_ite_eq' (Finset.range n) b fun _ => f]
      simp [hbn]
    · simp [hv]
  have h2 : (∑ j ∈ Finset.range n, if v = b ∧ j = a ∧ b < n ∧ a < n then f else 0)
      = if v = b then f else 0 := by
    by_cases hv : v = b
    · simp only [hv, han, hbn, true_and, and_true]
      rw [Finset.sum_ite_eq' (Finset.range n) a fun _ => f]
      simp [han]
    · simp [hv]
  rw [h1, h2]

theorem rowSum_augment {flow : Mat} {n : Nat} (hsq : Square flow n) {p : List Nat}
    (hnd : p.Nodup) (hin : ∀ v ∈ p, v < n) (f : Int) (v : Nat) {a z : Nat}
    (ha : p.head? = some a) (hz : p.getLast? = some z) :
    rowSum (augment f flow p) n v =
      rowSum flow n v + (if v = a then f else 0) - (if v = z then f else 0) := by
  induction p generalizing flow a with
  | nil => cases ha
  | cons x l ih =>
    obtain rfl : x = a := by simpa using ha
    cases l with
    | nil =>
      obtain rfl : x = z := by simpa using hz
      simp [augment]
    | cons b l2 =>
      have hz2 : (b :: l2).getLast? = some z := by
        rw [List.getLast?_cons_cons] at hz; exact hz
      have hna : x ∉ b :: l2 := (List.nodup_cons.1 hnd).1
      have hndt : (b :: l2).Nodup := (List.nodup_cons.1 hnd).2
      have hab : x ≠ b := fun h => hna (h ▸ List.mem_cons_self _ _)
      have han : x < n := hin x (List.mem_cons_self _ _)
      have hbn : b < n := hin b (List.mem_cons_of_mem _ (List.mem_cons_self _ _))
      rw [augment,
        ih (square_addM (square_addM hsq _ _ _) _ _ _) hndt
          (fun y hy => hin y (List.mem_cons_of_mem _ hy)) rfl hz2,
        rowSum_addM2 hsq hab han hbn]
      ring

theorem flowLE_augment {cap flow : Mat} {n : Nat} (hsq : Square flow n)
    {p : List Nat} (hnd : p.Nodup) (hin : ∀ v ∈ p, v < n)
    (hle : FlowLE cap flow n)
    {f : Int} (hf0 : 0 ≤ f)
    (hfe : ∀ e ∈ p.zip p.tail, f ≤ residual cap flow e.1 e.2) :
    FlowLE cap (augment f flow p) n := by
  intro i hi j hj
  rw [getM_augment hsq hnd hin]
  by_cases h1 : (i, j) ∈ p.zip p.tail
  · rw [if_pos h1, if_neg (no_rev_edge hnd h1)]
    have hr := hfe _ h1
    simp only [residual] at hr
    linarith
  · rw [if_neg h1]
    by_cases h2 : (j, i) ∈ p.zip p.tail
    · rw [if_pos h2]
      have := hle i hi j hj
      linarith
    · rw [if_neg h2]
      have := hle i hi j hj
      linarith

end EK

/-! ## BFS: helper lemmas -/

namespace EK

theorem vis_lt_length {visited : List Bool} {x : Nat} (h : Vis visited x) :
    x < visited.length := by
  by_contra hx
  unfold Vis at h
  rw [List.getD_eq_getElem?_getD, List.getElem?_eq_none (by omega)] at h
  cases h

theorem vis_set_iff {visited : List Bool} {j x : Nat} :
    Vis (visited.set j true) x ↔ Vis visited x ∨ (x = j ∧ j < visited.length) := by
  unfold Vis
  rw [List.getD_eq_getElem?_getD, List.getD_eq_getElem?_getD, List.getElem?_set]
  by_cases hjx : j = x
  · subst hjx
    by_cases hj : j < visited.length
    · simp [hj]
    · rw [if_pos rfl, if_neg hj, List.getElem?_eq_none (by omega)]
      simp [hj]
  · rw [if_neg hjx]
    have hx : x ≠ j := fun h => hjx h.symm
    simp [hx]

theorem vis_set_self {visited : List Bool} {j : Nat} (hj : j < visited.length) :
    Vis (visited.set j true) j :=
  vis_set_iff.2 (Or.inr ⟨rfl, hj⟩)

theorem vis_set_mono {visited : List Bool} {j x : Nat} (h : Vis visited x) :
    Vis (visited.set j true) x :=
  vis_set_iff.2 (Or.inl h)

theorem getD_set_self {parent : List Nat} {j : Nat} (c : Nat) (hj : j < parent.length) :
    (parent.set j c).getD j 0 = c := by
  rw [List.getD_eq_getElem?_getD, List.getElem?_set, if_pos rfl, if_pos hj]
  rfl

theorem getD_set_ne {parent : List Nat} {j x : Nat} (c : Nat) (h : j ≠ x) :
    (parent.set j c).getD x 0 = parent.getD x 0 := by
  rw [List.getD_eq_getElem?_getD, List.getD_eq_getElem?_getD, List.getElem?_set,
    if_neg h]

theorem cnt_set {visited : List Bool} {j : Nat} (hnv : ¬ Vis visited j)
    (hj : j < visited.length) :
    cntVisited (visited.set j true) = cntVisited visited + 1 := by
  unfold cntVisited
  rw [List.count_set _ _ _ _ hj]
  have hfalse : visited[j] = false := by
    unfold Vis at hnv
    rw [List.getD_eq_getElem?_getD, List.getElem?_eq_getElem hj] at hnv
    simpa using hnv
  simp [hfalse]

theorem cnt_le_length (visited : List Bool) : cntVisited visited ≤ visited.length :=
  List.count_le_length _ _

theorem tracePath_mono {parent : List Nat} {source : Nat} {fuel : Nat} {v : Nat}
    {p : List Nat} (h : tracePath parent source fuel v = some p) :
    tracePath parent source (fuel + 1) v = some p := by
  induction fuel generalizing v p with
  | zero => cases h
  | succ fuel ih =>
    rw [tracePath] at h
    rw [tracePath]
    by_cases hv : v = source
    · rw [if_pos hv] at h ⊢
      exact h
    · rw [if_neg hv] at h ⊢
      cases htp : tracePath parent source fuel (parent.getD v 0) with
      | none => rw [htp] at h; cases h
      | some q =>
        rw [htp] at h
        rw [ih htp]
        exact h

theorem tracePath_le {parent : List Nat} {source : Nat} {f g : Nat} {v : Nat}
    {p : List Nat} (h : tracePath parent source f v = some p) (hfg : f ≤ g) :
    tracePath parent source g v = some p := by
  induction g with
  | zero =>
    have : f = 0 := by omega
    subst this; exact h
  | succ g ih =>
    rcases Nat.lt_or_ge f (g + 1) with hf | hf
    · exact tracePath_mono (ih (by omega))
    · have : f = g + 1 := by omega
      subst this; exact h

theorem tracePath_congr {parent parent2 : List Nat} {source : Nat} {fuel : Nat}
    {v : Nat} {p : List Nat} (h : tracePath parent source fuel v = some p)
    (hagree : ∀ x ∈ p, x ≠ source → parent2.getD x 0 = parent.getD x 0) :
    tracePath parent2 source fuel v = some p := by
  induction fuel generalizing v p with
  | zero => cases h
  | succ fuel ih =>
    rw [tracePath] at h ⊢
    by_cases hv : v = source
    · rw [if_pos hv] at h ⊢
      exact h
    · rw [if_neg hv] at h ⊢
      cases htp : tracePath parent source fuel (parent.getD v 0) with
      | none => rw [htp] at h; cases h
      | some q =>
        rw [htp] at h
        have hpq : p = q ++ [v] := by
          cases h; rfl
        have hvp : v ∈ p := by rw [hpq]; simp
        have hpar : parent2.getD v 0 = parent.getD v 0 := hagree v hvp hv
        rw [hpar, ih htp fun x hx hxs => hagree x (by rw [hpq]; simp [hx]) hxs]
        exact h

theorem tracePath_extend {parent : List Nat} {source v : Nat} {fuel : Nat}
    {p : List Nat} (hv : v ≠ source)
    (h : tracePath parent source fuel (parent.getD v 0) = some p) :
    tracePath parent source (fuel + 1) v = some (p ++ [v]) := by
  rw [tracePath, if_neg hv, h]

theorem nodup_length_le {p : List Nat} {n : Nat} (hnd : p.Nodup)
    (hin : ∀ y ∈ p, y < n) : p.length ≤ n := by
  have h1 : p.toFinset.card = p.length := List.toFinset_card_of_nodup hnd
  have h2 : p.toFinset ⊆ Finset.range n := by
    intro x hx
    rw [Finset.mem_range]
    exact hin x (List.mem_toFinset.1 hx)
  have := Finset.card_le_card h2
  rw [h1, Finset.card_range] at this
  exact this

theorem depN_eq {parent : List Nat} {source n v : Nat} {p : List Nat}
    (hp : tracePath parent source p.length v = some p) (hlen : p.length ≤ n + 1) :
    depN parent source n v = p.length := by
  unfold depN
  rw [tracePath_le hp hlen]
  rfl

end EK

namespace EK

theorem bfsScan_spec {cap flow : Mat} {n : Nat} {sink current : Nat}
    {js : List Nat} {visited : List Bool} {parent queue : List Nat}
    {v' : List Bool} {p' q' : List Nat} {fnd : Bool}
    (hjs : ∀ j ∈ js, j < n)
    (hvlen : visited.length = n) (hplen : parent.length = n)
    (hrun : bfsScan cap flow sink current js visited parent queue = (v', p', q', fnd)) :
    v'.length = n ∧ p'.length = n ∧
    (∀ x, Vis visited x → Vis v' x) ∧
    (∀ x, Vis visited x → p'.getD x 0 = parent.getD x 0) ∧
    (∀ x, ¬ Vis visited x → Vis v' x →
      x < n ∧ x ∈ js ∧ 0 < residual cap flow current x ∧ p'.getD x 0 = current) ∧
    (∃ new, q' = queue ++ new ∧
      (∀ x ∈ new, ¬ Vis visited x ∧ Vis v' x ∧ x ≠ sink) ∧
      (fnd = false →
        (∀ x, ¬ Vis visited x → Vis v' x → x ∈ new) ∧
        cntVisited v' = cntVisited visited + new.length)) ∧
    (fnd = true → ¬ Vis visited sink ∧ Vis v' sink) ∧
    (fnd = false → ∀ j ∈ js, 0 < residual cap flow current j → Vis v' j) ∧
    (fnd = false → Vis v' sink → Vis visited sink) := by
  induction js generalizing visited parent queue with
  | nil =>
    rw [bfsScan] at hrun
    simp only [Prod.mk.injEq] at hrun
    obtain ⟨rfl, rfl, rfl, rfl⟩ := hrun
    refine ⟨hvlen, hplen, fun x h => h, fun x _ => rfl, fun x hn hv => absurd hv hn,
      ⟨[], by simp, by simp, fun _ => ⟨fun x hn hv => absurd hv hn, by simp⟩⟩,
      fun h => Bool.noConfusion h, ?_, fun _ h => h⟩
    intro _ j hj
    cases hj
  | cons j js ih =>
    rw [bfsScan] at hrun
    have hjn : j < n := hjs j (List.mem_cons_self _ _)
    have hjs2 : ∀ x ∈ js, x < n := fun x hx => hjs x (List.mem_cons_of_mem _ hx)
    by_cases hcond : visited.getD j false = false ∧ 0 < residual cap flow current j
    · rw [if_pos hcond] at hrun
      have hnvj : ¬ Vis visited j := by
        unfold Vis
        rw [hcond.1]
        simp
      by_cases hjsink : j = sink
      · rw [if_pos hjsink] at hrun
        simp only [Prod.mk.injEq] at hrun
        obtain ⟨rfl, rfl, rfl, rfl⟩ := hrun
        refine ⟨by simp [hvlen], by simp [hplen], fun x hx => vis_set_mono hx, ?_, ?_,
          ⟨[], by simp, by simp, fun h => Bool.noConfusion h⟩, ?_,
          fun h => Bool.noConfusion h, fun h => Bool.noConfusion h⟩
        · intro x hx
          have hxj : j ≠ x := fun h => hnvj (h ▸ hx)
          exact getD_set_ne _ hxj
        · intro x hnx hvx
          rcases vis_set_iff.1 hvx with h | ⟨rfl, -⟩
          · exact absurd h hnx
          · exact ⟨hjn, List.mem_cons_self _ _, hcond.2, getD_set_self _ (by omega)⟩
        · intro _
          refine ⟨hjsink ▸ hnvj, ?_⟩
          rw [← hjsink]
          exact vis_set_self (by omega)
      · rw [if_neg hjsink] at hrun
        have hv1len : (visited.set j true).length = n := by simp [hvlen]
        have hp1len : (parent.set j current).length = n := by simp [hplen]
        obtain ⟨ih1, ih2, ihmono, ihstab, ihnew,
          ⟨new1, hq1, hnewmem, hnewcov⟩, ihfound, ihscan, ihsink⟩ :=
          ih hjs2 hv1len hp1len hrun
        have hvisj1 : Vis (visited.set j true) j := vis_set_self (by omega)
        refine ⟨ih1, ih2, ?_, ?_, ?_, ?_, ?_, ?_, ?_⟩
        · intro x hx
          exact ihmono x (vis_set_mono hx)
        · intro x hx
          have hxj : j ≠ x := fun h => hnvj (h ▸ hx)
          rw [ihstab x (vis_set_mono hx)]
          exact getD_set_ne _ hxj
        · intro x hnx hvx
          by_cases hxj : x = j
          · subst hxj
            refine ⟨hjn, List.mem_cons_self _ _, hcond.2, ?_⟩
            rw [ihstab x hvisj1]
            exact getD_set_self _ (by omega)
          · have hnx1 : ¬ Vis (visited.set j true) x := by
              rw [vis_set_iff]
              rintro (h | ⟨rfl, -⟩)
              · exact hnx h
              · exact hxj rfl
            obtain ⟨h1, h2, h3, h4⟩ := ihnew x hnx1 hvx
            exact ⟨h1, List.mem_cons_of_mem _ h2, h3, h4⟩
        · refine ⟨j :: new1, ?_, ?_, ?_⟩
          · rw [hq1]
            simp
          · intro x hx
            rcases List.mem_cons.1 hx with rfl | hx2
            · exact ⟨hnvj, ihmono _ hvisj1, hjsink⟩
            · obtain ⟨ha, hb, hc⟩ := hnewmem x hx2
              exact ⟨fun hvx => ha (vis_set_mono hvx), hb, hc⟩
          · intro hf
            obtain ⟨hcov, hcnt⟩ := hnewcov hf
            constructor
            · intro x hnx hvx
              by_cases hxj : x = j
              · subst hxj
                exact List.mem_cons_self _ _
              · have hnx1 : ¬ Vis (visited.set j true) x := by
                  rw [vis_set_iff]
                  rintro (h | ⟨rfl, -⟩)
                  · exact hnx h
                  · exact hxj rfl
                exact List.mem_cons_of_mem _ (hcov x hnx1 hvx)
            · rw [hcnt, cnt_set hnvj (by omega)]
              simp only [List.length_cons]
              omega
        · intro hf
          obtain ⟨ha, hb⟩ := ihfound hf
          exact ⟨fun hvs => ha (vis_set_mono hvs), hb⟩
        · intro hf x hx hres
          rcases List.mem_cons.1 hx with rfl | hx2
          · exact ihmono _ hvisj1
          · exact ihscan hf x hx2 hres
        · intro hf hvs
          have h2 := ihsink hf hvs
          rcases vis_set_iff.1 h2 with h | ⟨hsj, -⟩
          · exact h
          · exact absurd hsj.symm hjsink
    · rw [if_neg hcond] at hrun
      obtain ⟨ih1, ih2, ihmono, ihstab, ihnew,
        ⟨new1, hq1, hnewmem, hnewcov⟩, ihfound, ihscan, ihsink⟩ :=
        ih hjs2 hvlen hplen hrun
      refine ⟨ih1, ih2, ihmono, ihstab, ?_, ⟨new1, hq1, hnewmem, hnewcov⟩,
        ihfound, ?_, ihsink⟩
      · intro x hnx hvx
        obtain ⟨h1, h2, h3, h4⟩ := ihnew x hnx hvx
        exact ⟨h1, List.mem_cons_of_mem _ h2, h3, h4⟩
      · intro hf x hx hres
        rcases List.mem_cons.1 hx with rfl | hx2
        · have hng : ¬ (visited.getD x false = false) := fun hg => hcond ⟨hg, hres⟩
          have hvj : Vis visited x := by
            unfold Vis
            cases hgd : visited.getD x false with
            | false => exact absurd hgd hng
            | true => rfl
          exact ihmono _ hvj
        · exact ihscan hf x hx2 hres

end EK

namespace EK

theorem residual_pos_lt {cap flow : Mat} {n : Nat} (hcap : Square cap n)
    (hflow : Square flow n) {a b : Nat} (h : 0 < residual cap flow a b) : b < n := by
  by_contra hb
  rw [residual, getM_of_oor hcap (Or.inr (by omega)),
    getM_of_oor hflow (Or.inr (by omega))] at h
  omega

theorem closed_unreach {cap flow : Mat} {n : Nat} (hcap : Square cap n)
    {source sink : Nat} {visited : List Bool}
    (hclosed : ∀ u, Vis visited u → ∀ j, j < n → 0 < residual cap flow u j → Vis visited j)
    (hvsrc : Vis visited source) (hsink : ¬ Vis visited sink) :
    ¬ Reach cap flow source sink := by
  intro hr
  suffices h : ∀ v, Reach cap flow source v → Vis visited v from hsink (h sink hr)
  intro v hv
  induction hv with
  | refl => exact hvsrc
  | tail _ hstep ih => exact hclosed _ ih _ (by rw [← hcap.1]; exact hstep.1) hstep.2

/--
Any residual path from the source to an unvisited node passes, just before
leaving the visited region for the first time, through a node still in the
BFS queue; the path is therefore at least one longer than that node's depth.
-/
theorem path_to_unvisited {cap flow : Mat} {n source : Nat} {visited : List Bool}
    {parent queue : List Nat}
    (hcap : Square cap n) (hflow : Square flow n)
    (hclosed : ∀ u, Vis visited u → u ∈ queue ∨
      (∀ j, j < n → 0 < residual cap flow u j → Vis visited j))
    (hvsrc : Vis visited source)
    (hmin : ∀ v, Vis visited v → ∀ q, q.head? = some source → q.getLast? = some v →
      PathOk cap flow q → depN parent source n v ≤ q.length) :
    ∀ L q w, q.length = L → q.head? = some source → q.getLast? = some w →
      PathOk cap flow q → ¬ Vis visited w →
      ∃ u ∈ queue, depN parent source n u + 1 ≤ q.length := by
  intro L
  induction L using Nat.strong_induction_on with
  | _ L ihL =>
    intro q w hL hh hl hok hnw
    have hqne : q ≠ [] := by
      intro h
      rw [h] at hh
      cases hh
    have hwlast : q.getLast hqne = w := by
      rw [List.getLast?_eq_getLast q hqne] at hl
      exact Option.some.inj hl
    have hsplit : q.dropLast ++ [w] = q := by
      rw [← hwlast]
      exact List.dropLast_append_getLast hqne
    cases hq1 : q.dropLast with
    | nil =>
      have : q = [w] := by rw [← hsplit, hq1]; rfl
      rw [this] at hh
      have : w = source := by simpa using hh
      exact absurd (this ▸ hvsrc) hnw
    | cons c cs =>
      set q1 := q.dropLast with hq1def
      have hq1ne : q1 ≠ [] := by rw [hq1]; simp
      set u2 := q1.getLast hq1ne with hu2
      have hq1l : q1.getLast? = some u2 := List.getLast?_eq_getLast _ _
      have hedges : q.zip q.tail = q1.zip q1.tail ++ [(u2, w)] := by
        conv_lhs => rw [← hsplit]
        exact zip_tail_concat hq1l w
      have hres : 0 < residual cap flow u2 w :=
        hok (u2, w) (by rw [hedges]; simp)
      have hok1 : PathOk cap flow q1 := by
        intro e he
        apply hok
        rw [hedges]
        exact List.mem_append_left _ he
      have hh1 : q1.head? = some source := by
        rw [← hsplit, List.head?_append_of_ne_nil _ hq1ne] at hh
        exact hh
      have hlen1 : q1.length + 1 = q.length := by
        rw [← hsplit, List.length_append]
        rfl
      by_cases hvu : Vis visited u2
      · rcases hclosed u2 hvu with hu | hcl
        · refine ⟨u2, hu, ?_⟩
          have := hmin u2 hvu q1 hh1 hq1l hok1
          omega
        · have hwn : w < n := residual_pos_lt hcap hflow hres
          exact absurd (hcl w hwn hres) hnw
      · obtain ⟨u, hu, hle⟩ :=
          ihL q1.length (by omega) q1 u2 rfl hh1 hq1l hok1 hvu
        exact ⟨u, hu, by omega⟩

end EK

namespace EK

theorem bfs_step_spec {cap flow : Mat} {n : Nat} (hcap : Square cap n)
    (hflow : Square flow n) {source sink current : Nat} {rest : List Nat}
    {visited v' : List Bool} {parent p' q' : List Nat} {fnd : Bool}
    (hne : source ≠ sink)
    (hinv : BfsInv cap flow n source sink (current :: rest) visited parent)
    (hscan : bfsScan cap flow sink current (List.range cap.length) visited parent rest
      = (v', p', q', fnd)) :
    (fnd = true → p'.length = n ∧ ∃ p, tracePath p' source (n + 1) sink = some p ∧
      GoodPath cap flow n source sink p ∧ Shortest cap flow source sink p) ∧
    (fnd = false → BfsInv cap flow n source sink q' v' p' ∧
      ∃ new, q' = rest ++ new ∧ cntVisited v' = cntVisited visited + new.length) := by
  obtain ⟨hvcur, hcurn⟩ := hinv.hq current (List.mem_cons_self _ _)
  have hjs : ∀ j ∈ List.range cap.length, j < n := by
    intro j hj
    rw [List.mem_range, hcap.1] at hj
    exact hj
  obtain ⟨hvl, hpl, hmono, hstab, hnewv, ⟨new, hq2, hnewmem, hnewcov⟩,
    hfound, hscanall, hsink2⟩ := bfsScan_spec hjs hinv.vlen hinv.plen hscan
  obtain ⟨p0, hp0tp, hp0h, hp0l, hp0nd, hp0mem, hp0ok⟩ := hinv.hpath current hvcur
  have hp0len : p0.length ≤ n := nodup_length_le hp0nd fun y hy => (hp0mem y hy).1
  have hp0tp2 : tracePath p' source p0.length current = some p0 :=
    tracePath_congr hp0tp fun x hx _ => hstab x (hp0mem x hx).2
  have hdepcur : depN parent source n current = p0.length := depN_eq hp0tp (by omega)
  have hfresh : ∀ w q, q.head? = some source → q.getLast? = some w →
      PathOk cap flow q → ¬ Vis visited w → p0.length + 1 ≤ q.length := by
    intro w q hh hl hok hnw
    obtain ⟨u, hu, hle⟩ := path_to_unvisited hcap hflow hinv.hclosed hinv.vsrc hinv.hmin
      q.length q w rfl hh hl hok hnw
    have hdc : depN parent source n current ≤ depN parent source n u := by
      rcases List.mem_cons.1 hu with rfl | hu2
      · exact le_refl _
      · exact (List.pairwise_cons.1 hinv.hord).1 u hu2
    omega
  have hdepstab : ∀ x, Vis visited x → depN p' source n x = depN parent source n x := by
    intro x hx
    obtain ⟨p, hptp, -, -, hpnd, hpmem, -⟩ := hinv.hpath x hx
    have hplen2 : p.length ≤ n := nodup_length_le hpnd fun y hy => (hpmem y hy).1
    have h1 : tracePath p' source p.length x = some p :=
      tracePath_congr hptp fun y hy _ => hstab y (hpmem y hy).2
    rw [depN_eq h1 (by omega), depN_eq hptp (by omega)]
  have hbuild : ∀ x, ¬ Vis visited x → Vis v' x →
      tracePath p' source (p0 ++ [x]).length x = some (p0 ++ [x]) ∧
      (p0 ++ [x]).head? = some source ∧ (p0 ++ [x]).getLast? = some x ∧
      (p0 ++ [x]).Nodup ∧ (∀ y ∈ p0 ++ [x], y < n ∧ Vis v' y) ∧
      PathOk cap flow (p0 ++ [x]) ∧ depN p' source n x = p0.length + 1 := by
    intro x hnx hvx
    obtain ⟨hxn, -, hres, hpar⟩ := hnewv x hnx hvx
    have hxs : x ≠ source := fun h => hnx (h ▸ hinv.vsrc)
    have hp0ne : p0 ≠ [] := by intro h; rw [h] at hp0h; cases hp0h
    have htp : tracePath p' source (p0.length + 1) x = some (p0 ++ [x]) :=
      tracePath_extend hxs (by rw [hpar]; exact hp0tp2)
    have hlenx : (p0 ++ [x]).length = p0.length + 1 := by simp
    have hxnotp0 : x ∉ p0 := fun hmem => hnx (hp0mem x hmem).2
    refine ⟨by rw [hlenx]; exact htp, ?_, List.getLast?_concat _, ?_, ?_, ?_, ?_⟩
    · rw [List.head?_append_of_ne_nil _ hp0ne]
      exact hp0h
    · rw [List.nodup_append]
      refine ⟨hp0nd, List.nodup_singleton _, fun a ha hax => ?_⟩
      rcases List.mem_singleton.1 hax with rfl
      exact hxnotp0 ha
    · intro y hy
      rcases List.mem_append.1 hy with hy1 | hy2
      · exact ⟨(hp0mem y hy1).1, hmono y (hp0mem y hy1).2⟩
      · rcases List.mem_singleton.1 hy2 with rfl
        exact ⟨hxn, hvx⟩
    · intro e he
      rw [zip_tail_concat hp0l x] at he
      rcases List.mem_append.1 he with he1 | he2
      · exact hp0ok e he1
      · rcases List.mem_singleton.1 he2 with rfl
        exact hres
    · rw [depN_eq (by rw [hlenx]; exact htp) (by rw [hlenx]; omega)]
      exact hlenx
  constructor
  · intro hf
    obtain ⟨hnvsink, hvsink⟩ := hfound hf
    obtain ⟨htp, hh, hl, hnd, hmem, hok, hdep⟩ := hbuild sink hinv.hsink hvsink
    have hlenp : (p0 ++ [sink]).length = p0.length + 1 := by simp
    refine ⟨hpl, ⟨p0 ++ [sink], ?_, ⟨hh, hl, hnd, fun y hy => (hmem y hy).1, hok⟩, ?_⟩⟩
    · exact tracePath_le (by rw [hlenp] at htp; exact htp) (by omega)
    · intro q hqh hql hqok
      have := hfresh sink q hqh hql hqok hinv.hsink
      rw [hlenp]
      omega
  · intro hf
    obtain ⟨hcov, hcnt⟩ := hnewcov hf
    have hnewdep : ∀ x ∈ new, depN p' source n x = p0.length + 1 := by
      intro x hx
      obtain ⟨hnx, hvx, -⟩ := hnewmem x hx
      exact (hbuild x hnx hvx).2.2.2.2.2.2
    have hrestdep : ∀ x ∈ rest, depN p' source n x = depN parent source n x :=
      fun x hx => hdepstab x (hinv.hq x (List.mem_cons_of_mem _ hx)).1
    have hrest_le : ∀ x ∈ rest, depN parent source n current ≤ depN parent source n x :=
      fun x hx => (List.pairwise_cons.1 hinv.hord).1 x hx
    have hspread_cur : ∀ x ∈ current :: rest,
        depN parent source n x ≤ depN parent source n current + 1 :=
      hinv.hspread current rest rfl
    refine ⟨⟨hvl, hpl, hmono source hinv.vsrc, ?_, ?_, ?_, ?_, ?_, ?_, ?_⟩,
      new, hq2, hcnt⟩
    · intro x hx
      rw [hq2] at hx
      rcases List.mem_append.1 hx with hx1 | hx2
      · obtain ⟨hv, hn⟩ := hinv.hq x (List.mem_cons_of_mem _ hx1)
        exact ⟨hmono x hv, hn⟩
      · obtain ⟨hnx, hvx, -⟩ := hnewmem x hx2
        exact ⟨hvx, (hnewv x hnx hvx).1⟩
    · intro hv
      exact hinv.hsink (hsink2 hf hv)
    · intro v hv
      by_cases hov : Vis visited v
      · obtain ⟨p, hptp, hph, hpl2, hpnd, hpmem, hpok⟩ := hinv.hpath v hov
        exact ⟨p, tracePath_congr hptp fun y hy _ => hstab y (hpmem y hy).2,
          hph, hpl2, hpnd, fun y hy => ⟨(hpmem y hy).1, hmono y (hpmem y hy).2⟩, hpok⟩
      · obtain ⟨htp, hh, hl, hnd, hmem2, hok, -⟩ := hbuild v hov hv
        exact ⟨p0 ++ [v], htp, hh, hl, hnd, hmem2, hok⟩
    · intro u hu
      by_cases hucur : u = current
      · subst hucur
        right
        intro j hj hres
        exact hscanall hf j (by rw [List.mem_range, hcap.1]; exact hj) hres
      · by_cases hou : Vis visited u
        · rcases hinv.hclosed u hou with hq3 | hcl
          · rcases List.mem_cons.1 hq3 with h | h
            · exact absurd h hucur
            · left
              rw [hq2]
              exact List.mem_append_left _ h
          · right
            intro j hj hres
            exact hmono j (hcl j hj hres)
        · left
          rw [hq2]
          exact List.mem_append_right _ (hcov u hou hu)
    · rw [hq2, List.pairwise_append]
      refine ⟨?_, ?_, ?_⟩
      · have hpw : rest.Pairwise
            fun u w => depN parent source n u ≤ depN parent source n w :=
          (List.pairwise_cons.1 hinv.hord).2
        exact hpw.imp_of_mem fun {a b} ha hb hab => by
          rw [hrestdep a ha, hrestdep b hb]
          exact hab
      · exact List.pairwise_of_forall_mem_list fun a ha b hb => by
          rw [hnewdep a ha, hnewdep b hb]
      · intro a ha b hb
        rw [hrestdep a ha, hnewdep b hb]
        have h1 := hspread_cur a (List.mem_cons_of_mem _ ha)
        omega
    · intro c r hcr x hx
      rw [hq2] at hcr hx
      cases rest with
      | nil =>
        simp only [List.nil_append] at hcr hx
        have hc : c ∈ new := by rw [hcr]; exact List.mem_cons_self _ _
        rw [hnewdep x hx, hnewdep c hc]
        omega
      | cons c2 r2 =>
        simp only [List.cons_append] at hcr
        injection hcr with hceq hreq
        subst hceq
        have hc2dep : depN p' source n c2 = depN parent source n c2 :=
          hrestdep c2 (List.mem_cons_self _ _)
        have hcur_le : depN parent source n current ≤ depN parent source n c2 :=
          hrest_le c2 (List.mem_cons_self _ _)
        rcases List.mem_append.1 hx with hx1 | hx2
        · rw [hrestdep x hx1, hc2dep]
          have := hspread_cur x (List.mem_cons_of_mem _ hx1)
          omega
        · rw [hnewdep x hx2, hc2dep]
          omega
    · intro v hv q hqh hql hqok
      by_cases hov : Vis visited v
      · rw [hdepstab v hov]
        exact hinv.hmin v hov q hqh hql hqok
      · obtain ⟨-, -, -, -, -, -, hdep⟩ := hbuild v hov hv
        rw [hdep]
        exact hfresh v q hqh hql hqok hov

end EK

namespace EK

theorem bfsLoop_spec {cap flow : Mat} {n : Nat} (hcap : Square cap n)
    (hflow : Square flow n) {source sink : Nat} (hne : source ≠ sink) :
    ∀ fuel (queue : List Nat) (visited : List Bool) (parent : List Nat),
    BfsInv cap flow n source sink queue visited parent →
    queue.length + (n - cntVisited visited) ≤ fuel →
    (bfsLoop cap flow sink fuel queue visited parent).1.length = n ∧
    ((bfsLoop cap flow sink fuel queue visited parent).2 = true →
      ∃ p, tracePath (bfsLoop cap flow sink fuel queue visited parent).1 source (n + 1) sink
        = some p ∧ GoodPath cap flow n source sink p ∧ Shortest cap flow source sink p) ∧
    ((bfsLoop cap flow sink fuel queue visited parent).2 = false →
      ¬ Reach cap flow source sink) := by
  intro fuel
  induction fuel with
  | zero =>
    intro queue visited parent hinv hfuel
    have hq0 : queue = [] := List.length_eq_zero.1 (by omega)
    rw [bfsLoop]
    refine ⟨hinv.plen, fun h => Bool.noConfusion h, fun _ => ?_⟩
    refine closed_unreach hcap ?_ hinv.vsrc hinv.hsink
    intro u hu j hj hres
    rcases hinv.hclosed u hu with hq1 | hcl
    · rw [hq0] at hq1
      cases hq1
    · exact hcl j hj hres
  | succ fuel ih =>
    intro queue visited parent hinv hfuel
    cases queue with
    | nil =>
      rw [bfsLoop]
      refine ⟨hinv.plen, fun h => Bool.noConfusion h, fun _ => ?_⟩
      refine closed_unreach hcap ?_ hinv.vsrc hinv.hsink
      intro u hu j hj hres
      rcases hinv.hclosed u hu with hq1 | hcl
      · cases hq1
      · exact hcl j hj hres
    | cons current rest =>
      rcases hscan : bfsScan cap flow sink current (List.range cap.length) visited parent rest
        with ⟨v', p', q', fnd⟩
      obtain ⟨hstep_t, hstep_f⟩ := bfs_step_spec hcap hflow hne hinv hscan
      cases fnd with
      | true =>
        have hrun : bfsLoop cap flow sink (fuel + 1) (current :: rest) visited parent
            = (p', true) := by
          rw [bfsLoop, hscan]
        rw [hrun]
        obtain ⟨hplen2, p, htp, hgood, hshort⟩ := hstep_t rfl
        exact ⟨hplen2, fun _ => ⟨p, htp, hgood, hshort⟩, fun h => Bool.noConfusion h⟩
      | false =>
        obtain ⟨hinv2, new, hq2, hcnt⟩ := hstep_f rfl
        have hrun : bfsLoop cap flow sink (fuel + 1) (current :: rest) visited parent
            = bfsLoop cap flow sink fuel q' v' p' := by
          rw [bfsLoop, hscan]
        rw [hrun]
        apply ih q' v' p' hinv2
        have h1 : cntVisited v' ≤ n := by
          have h2 := cnt_le_length v'
          rw [hinv2.vlen] at h2
          exact h2
        rw [hq2, List.length_append]
        simp only [List.length_cons] at hfuel
        omega

theorem bfsInv_init {cap flow : Mat} {n : Nat} (hflow : Square flow n)
    {source sink : Nat} (hsrc : source < n) (hne : source ≠ sink)
    {parent : List Nat} (hplen : parent.length = n) :
    BfsInv cap flow n source sink [source]
      ((List.replicate n false).set source true) parent := by
  have hvis : ∀ x, Vis ((List.replicate n false).set source true) x ↔ x = source := by
    intro x
    rw [vis_set_iff]
    constructor
    · rintro (h | ⟨rfl, -⟩)
      · exfalso
        unfold Vis at h
        rw [List.getD_eq_getElem?_getD, List.getElem?_replicate] at h
        by_cases hx : x < n
        · rw [if_pos hx] at h
          cases h
        · rw [if_neg hx] at h
          cases h
      · rfl
    · rintro rfl
      exact Or.inr ⟨rfl, by simpa using hsrc⟩
  have hvsrc : Vis ((List.replicate n false).set source true) source := (hvis source).2 rfl
  have htpsrc : tracePath parent source 1 source = some [source] := by
    rw [tracePath, if_pos rfl]
  have hdepsrc : depN parent source n source = 1 :=
    depN_eq (p := [source]) htpsrc (by rw [List.length_cons, List.length_nil]; omega)
  refine ⟨by simp, hplen, hvsrc, ?_, ?_, ?_, ?_, ?_, ?_, ?_⟩
  · intro x hx
    rcases List.mem_singleton.1 hx with rfl
    exact ⟨hvsrc, hsrc⟩
  · intro h
    exact hne ((hvis sink).1 h).symm
  · intro v hv
    rcases (hvis v).1 hv with rfl
    refine ⟨[v], htpsrc, rfl, rfl, List.nodup_singleton _, ?_, ?_⟩
    · intro y hy
      rcases List.mem_singleton.1 hy with rfl
      exact ⟨hsrc, hvsrc⟩
    · intro e he
      cases he
  · intro u hu
    rcases (hvis u).1 hu with rfl
    exact Or.inl (List.mem_singleton.2 rfl)
  · exact List.pairwise_singleton _ _
  · intro c r hcr x hx
    rcases List.mem_singleton.1 hx with rfl
    have hc : c = x := by
      have := congrArg List.head? hcr
      simpa using this.symm
    rw [hc]
    omega
  · intro v hv q hqh hql hqok
    rcases (hvis v).1 hv with rfl
    rw [hdepsrc]
    have : q ≠ [] := by
      intro h
      rw [h] at hqh
      cases hqh
    have := List.length_pos.2 this
    omega

theorem bfs_spec {cap flow : Mat} {n : Nat} (hcap : Square cap n)
    (hflow : Square flow n) {source sink : Nat} (hsrc : source < n)
    (hne : source ≠ sink) (parent : List Nat) (hplen : parent.length = n) :
    (bfs cap flow source sink parent).1.length = n ∧
    ((bfs cap flow source sink parent).2 = true →
      ∃ p, tracePath (bfs cap flow source sink parent).1 source (n + 1) sink = some p ∧
        GoodPath cap flow n source sink p ∧ Shortest cap flow source sink p) ∧
    ((bfs cap flow source sink parent).2 = false → ¬ Reach cap flow source sink) := by
  have hbfs : bfs cap flow source sink parent
      = bfsLoop cap flow sink (n + 1) [source]
          ((List.replicate n false).set source true) parent := by
    rw [bfs, hcap.1]
  rw [hbfs]
  apply bfsLoop_spec hcap hflow hne
  · exact bfsInv_init hflow hsrc hne hplen
  · have hcnt : cntVisited ((List.replicate n false).set source true) = 1 := by
      have h0 : cntVisited (List.replicate n false) = 0 := by
        unfold cntVisited
        rw [List.count_replicate]
        simp
      have hnv : ¬ Vis (List.replicate n false) source := by
        unfold Vis
        rw [List.getD_eq_getElem?_getD, List.getElem?_replicate]
        by_cases hx : source < n
        · rw [if_pos hx]
          simp
        · rw [if_neg hx]
          simp
      rw [cnt_set hnv (by simp [hsrc]), h0]
    rw [hcnt]
    have hl1 : ([source] : List Nat).length = 1 := rfl
    rw [hl1]
    omega

end EK

/-! ## The Edmonds-Karp loop -/

namespace EK

theorem list_range_sum (n : Nat) (f : Nat → Int) :
    ((List.range n).map f).sum = ∑ j ∈ Finset.range n, f j := by
  induction n with
  | zero => simp
  | succ n ih =>
    rw [List.range_succ, Finset.sum_range_succ, List.map_append, List.sum_append, ih]
    simp

theorem srcCapSum_eq {cap : Mat} {n : Nat} (hcap : Square cap n) (source : Nat) :
    srcCapSum cap source = rowSum cap n source := by
  rw [srcCapSum, hcap.1, rowSum, list_range_sum]

theorem goodpath_two {p : List Nat} {s t : Nat} (hh : p.head? = some s)
    (hl : p.getLast? = some t) (hne : s ≠ t) :
    ∃ b rest, p = s :: b :: rest := by
  cases p with
  | nil => cases hh
  | cons a l =>
    have has : a = s := by simpa using hh
    cases l with
    | nil =>
      have hat : a = t := by simpa using hl
      exact absurd (has ▸ hat) hne
    | cons b rest => exact ⟨b, rest, by rw [has]⟩

theorem pathResiduals_pos {cap flow : Mat} {p : List Nat} (hok : PathOk cap flow p) :
    ∀ x ∈ pathResiduals cap flow p, 0 < x := by
  intro x hx
  rw [pathResiduals_eq_map] at hx
  obtain ⟨e, he, rfl⟩ := List.mem_map.1 hx
  exact hok e he

theorem bottleneck_facts {cap flow : Mat} {n s t : Nat} {p : List Nat}
    (hgood : GoodPath cap flow n s t p) (hne : s ≠ t) :
    1 ≤ listMin (pathResiduals cap flow p) ∧
    ∀ e ∈ p.zip p.tail, listMin (pathResiduals cap flow p) ≤ residual cap flow e.1 e.2 := by
  obtain ⟨hh, hl, hnd, hmem, hok⟩ := hgood
  obtain ⟨b, rest, rfl⟩ := goodpath_two hh hl hne
  constructor
  · apply one_le_listMin
    · rw [pathResiduals]
      simp
    · intro x hx
      have := pathResiduals_pos hok x hx
      omega
  · intro e he
    apply listMin_le_of_mem
    rw [pathResiduals_eq_map]
    exact List.mem_map.2 ⟨e, he, rfl⟩

theorem path_reach {cap flow : Mat} {n : Nat} (hcap : Square cap n) :
    ∀ (p : List Nat) (s t : Nat), p.head? = some s → p.getLast? = some t →
      (∀ v ∈ p, v < n) → PathOk cap flow p → Reach cap flow s t := by
  intro p
  induction p with
  | nil =>
    intro s t hh hl hmem hok
    cases hh
  | cons a l ih =>
    intro s t hh hl hmem hok
    obtain rfl : a = s := by simpa using hh
    cases l with
    | nil =>
      obtain rfl : a = t := by simpa using hl
      exact Relation.ReflTransGen.refl
    | cons b rest =>
      have hstep : stepRel cap flow a b := by
        refine ⟨?_, hok (a, b) (by simp)⟩
        rw [hcap.1]
        exact hmem b (by simp)
      have hl2 : (b :: rest).getLast? = some t := by
        rw [List.getLast?_cons_cons] at hl
        exact hl
      have hmem2 : ∀ v ∈ b :: rest, v < n := fun v hv => hmem v (List.mem_cons_of_mem _ hv)
      have hok2 : PathOk cap flow (b :: rest) := by
        intro e he
        apply hok
        simp only [List.zip_cons_cons, List.tail_cons]
        exact List.mem_cons_of_mem _ he
      exact Relation.ReflTransGen.head hstep (ih b t rfl hl2 hmem2 hok2)

theorem goodpath_reach {cap flow : Mat} {n : Nat} (hcap : Square cap n)
    {s t : Nat} {p : List Nat} (hgood : GoodPath cap flow n s t p) :
    Reach cap flow s t :=
  path_reach hcap p s t hgood.1 hgood.2.1 hgood.2.2.2.1 hgood.2.2.2.2

end EK

namespace EK

theorem rowSum_zeroMat (n m v : Nat) : rowSum (zeroMat n) m v = 0 := by
  unfold rowSum
  rw [Finset.sum_congr rfl fun j _ => getM_zeroMat n v j]
  simp

theorem ekInv_init {cap : Mat} {n : Nat} (hcap : CapOk cap n) (s t : Nat) :
    EkInv cap (zeroMat n) n s t 0 := by
  refine ⟨square_zeroMat n, ?_, ?_, ?_, rowSum_zeroMat n n s⟩
  · intro i j
    rw [getM_zeroMat, getM_zeroMat]
    ring
  · intro i hi j hj
    rw [getM_zeroMat]
    exact hcap.2 i hi j hj
  · intro v _ _ _
    exact rowSum_zeroMat n n v

theorem value_le_srcCapSum {cap flow : Mat} {n source : Nat} (hcap : CapOk cap n)
    (hle : FlowLE cap flow n) (hs : source < n) :
    rowSum flow n source ≤ srcCapSum cap source := by
  rw [srcCapSum_eq hcap.1]
  apply Finset.sum_le_sum
  intro j hj
  exact hle source hs j (Finset.mem_range.1 hj)

theorem ekLoop_spec {cap : Mat} {n : Nat} (hcap : CapOk cap n)
    {source sink : Nat} (hsrc : source < n) (hsink : sink < n)
    (hne : source ≠ sink) :
    ∀ (fuel : Nat) (flow : Mat) (parent : List Nat) (maxFlow : Int)
      (hist : List PathRec),
    EkInv cap flow n source sink maxFlow →
    parent.length = n →
    srcCapSum cap source - maxFlow < (fuel : Int) →
    EkInv cap (ekLoop cap source sink fuel flow parent maxFlow hist).2.1 n source sink
      (ekLoop cap source sink fuel flow parent maxFlow hist).1 ∧
    ¬ Reach cap (ekLoop cap source sink fuel flow parent maxFlow hist).2.1 source sink ∧
    ∃ tail, (ekLoop cap source sink fuel flow parent maxFlow hist).2.2 = hist ++ tail ∧
      (ekLoop cap source sink fuel flow parent maxFlow hist).2.1
        = tail.foldl applyRec flow ∧
      ReplayOk cap n source sink flow tail ∧
      ReplayShort cap source sink flow tail ∧
      (ekLoop cap source sink fuel flow parent maxFlow hist).1
        = maxFlow + (tail.map Prod.snd).sum := by
  intro fuel
  induction fuel with
  | zero =>
    intro flow parent maxFlow hist hinv hplen hfuel
    exfalso
    have h1 : rowSum flow n source ≤ srcCapSum cap source :=
      value_le_srcCapSum hcap hinv.2.2.1 hsrc
    have h2 : rowSum flow n source = maxFlow := hinv.2.2.2.2
    simp only [Nat.cast_zero] at hfuel
    omega
  | succ fuel ih =>
    intro flow parent maxFlow hist hinv hplen hfuel
    obtain ⟨hflowsq, hA, hle, hcons, hval⟩ := hinv
    rcases hbfs : bfs cap flow source sink parent with ⟨parent1, fnd⟩
    obtain ⟨hp1len, hbt, hbf⟩ := bfs_spec hcap.1 hflowsq hsrc hne parent hplen
    rw [hbfs] at hp1len hbt hbf
    cases fnd with
    | false =>
      have hrun : ekLoop cap source sink (fuel + 1) flow parent maxFlow hist
          = (maxFlow, flow, hist) := by
        rw [ekLoop, hbfs]
      rw [hrun]
      refine ⟨⟨hflowsq, hA, hle, hcons, hval⟩, hbf rfl, [], by simp, rfl, trivial,
        trivial, by simp⟩
    | true =>
      obtain ⟨p, htp0, hgood, hshort⟩ := hbt rfl
      have htp : tracePath parent1 source (n + 1) sink = some p := htp0
      obtain ⟨hf1, hfe⟩ := bottleneck_facts hgood hne
      obtain ⟨hh, hl, hnd, hmem, hok⟩ := hgood
      have hmemn : ∀ v ∈ p, v < n := hmem
      have hrun : ekLoop cap source sink (fuel + 1) flow parent maxFlow hist
          = ekLoop cap source sink fuel
              (augment (listMin (pathResiduals cap flow p)) flow p) parent1
              (maxFlow + listMin (pathResiduals cap flow p))
              (hist ++ [(p, listMin (pathResiduals cap flow p))]) := by
        rw [ekLoop, hbfs]
        dsimp only
        rw [show cap.length + 1 = n + 1 from by rw [hcap.1.1], htp]
      have hinv2 : EkInv cap (augment (listMin (pathResiduals cap flow p)) flow p)
          n source sink (maxFlow + listMin (pathResiduals cap flow p)) := by
        refine ⟨square_augment hflowsq _ _, augment_antisym hflowsq hA _ _,
          flowLE_augment hflowsq hnd hmemn hle (by omega) hfe, ?_, ?_⟩
        · intro v hv hvs hvt
          rw [rowSum_augment hflowsq hnd hmemn _ v hh hl, hcons v hv hvs hvt,
            if_neg hvs, if_neg hvt]
          ring
        · rw [rowSum_augment hflowsq hnd hmemn _ source hh hl, hval,
            if_pos rfl, if_neg hne]
          ring
      have hfuel2 : srcCapSum cap source
          - (maxFlow + listMin (pathResiduals cap flow p)) < (fuel : Int) := by
        simp only [Nat.cast_succ] at hfuel
        omega
      have hp1len2 : parent1.length = n := hp1len
      obtain ⟨ihinv, ihreach, tail2, ihhist, ihfold, ihok, ihshort, ihsum⟩ :=
        ih (augment (listMin (pathResiduals cap flow p)) flow p) parent1
          (maxFlow + listMin (pathResiduals cap flow p))
          (hist ++ [(p, listMin (pathResiduals cap flow p))]) hinv2 hp1len2 hfuel2
      rw [hrun]
      refine ⟨ihinv, ihreach, (p, listMin (pathResiduals cap flow p)) :: tail2,
        ?_, ?_, ?_, ?_, ?_⟩
      · rw [ihhist]
        simp
      · rw [ihfold]
        rfl
      · exact ⟨rfl, hf1, ⟨hh, hl, hnd, hmem, hok⟩, ihok⟩
      · exact ⟨hshort, ihshort⟩
      · rw [ihsum]
        simp only [List.map_cons, List.sum_cons]
        ring

end EK

namespace EK

theorem value_eq_crossflow {flow : Mat} {n source sink : Nat}
    (hA : Antisym flow) (hcons : Conserved flow n source sink)
    (hsrc : source < n) {T : Finset Nat} (hsT : source ∈ T) (htT : sink ∉ T) :
    rowSum flow n source =
      ∑ i ∈ (Finset.range n).filter (· ∈ T),
        ∑ j ∈ (Finset.range n).filter (· ∉ T), getM flow i j := by
  have h1 : rowSum flow n source
      = ∑ i ∈ (Finset.range n).filter (· ∈ T), rowSum flow n i := by
    rw [Finset.sum_eq_single_of_mem source
      (Finset.mem_filter.2 ⟨Finset.mem_range.2 hsrc, hsT⟩)]
    intro b hb hbs
    obtain ⟨hbr, hbT⟩ := Finset.mem_filter.1 hb
    refine hcons b (Finset.mem_range.1 hbr) hbs fun hbt => ?_
    exact htT (hbt ▸ hbT)
  have h2 : ∀ i, rowSum flow n i
      = (∑ j ∈ (Finset.range n).filter (· ∈ T), getM flow i j)
        + ∑ j ∈ (Finset.range n).filter (· ∉ T), getM flow i j := by
    intro i
    rw [rowSum, ← Finset.sum_filter_add_sum_filter_not (Finset.range n) (· ∈ T)]
  have h3 : (∑ i ∈ (Finset.range n).filter (· ∈ T),
      ∑ j ∈ (Finset.range n).filter (· ∈ T), getM flow i j) = 0 := by
    set A := (Finset.range n).filter (· ∈ T) with hA2
    have hswap : (∑ i ∈ A, ∑ j ∈ A, getM flow i j)
        = -∑ i ∈ A, ∑ j ∈ A, getM flow i j := by
      calc (∑ i ∈ A, ∑ j ∈ A, getM flow i j)
          = ∑ i ∈ A, ∑ j ∈ A, -getM flow j i := by
            refine Finset.sum_congr rfl fun i hi => Finset.sum_congr rfl fun j hj => ?_
            exact hA i j
        _ = -∑ i ∈ A, ∑ j ∈ A, getM flow j i := by
            rw [← Finset.sum_neg_distrib]
            refine Finset.sum_congr rfl fun i hi => ?_
            rw [Finset.sum_neg_distrib]
        _ = -∑ j ∈ A, ∑ i ∈ A, getM flow j i := by rw [Finset.sum_comm]
    omega
  rw [h1, Finset.sum_congr rfl fun i _ => h2 i, Finset.sum_add_distrib, h3]
  ring

theorem weak_duality {cap flow : Mat} {n source sink : Nat} (hcap : CapOk cap n)
    (hA : Antisym flow) (hle : FlowLE cap flow n)
    (hcons : Conserved flow n source sink) (hsrc : source < n)
    {T : Finset Nat} (hsT : source ∈ T) (htT : sink ∉ T) :
    rowSum flow n source ≤ cutCap cap n T := by
  rw [value_eq_crossflow hA hcons hsrc hsT htT, cutCap]
  refine Finset.sum_le_sum fun i hi => Finset.sum_le_sum fun j hj => ?_
  exact hle i (Finset.mem_range.1 (Finset.mem_filter.1 hi).1)
    j (Finset.mem_range.1 (Finset.mem_filter.1 hj).1)

theorem maxflow_mincut {cap flow : Mat} {n source sink : Nat} (hcap : CapOk cap n)
    (hA : Antisym flow) (hle : FlowLE cap flow n)
    (hcons : Conserved flow n source sink) (hsrc : source < n)
    (hnr : ¬ Reach cap flow source sink) :
    ∃ S : Finset Nat, source ∈ S ∧ sink ∉ S ∧
      rowSum flow n source = cutCap cap n S ∧
      ∀ T : Finset Nat, source ∈ T → sink ∉ T →
        rowSum flow n source ≤ cutCap cap n T := by
  classical
  refine ⟨(Finset.range n).filter fun v => Reach cap flow source v, ?_, ?_, ?_, ?_⟩
  · exact Finset.mem_filter.2 ⟨Finset.mem_range.2 hsrc, Relation.ReflTransGen.refl⟩
  · intro h
    exact hnr (Finset.mem_filter.1 h).2
  · set S := (Finset.range n).filter fun v => Reach cap flow source v with hS
    have hsS : source ∈ S :=
      Finset.mem_filter.2 ⟨Finset.mem_range.2 hsrc, Relation.ReflTransGen.refl⟩
    have htS : sink ∉ S := fun h => hnr (Finset.mem_filter.1 h).2
    rw [value_eq_crossflow hA hcons hsrc hsS htS, cutCap]
    refine Finset.sum_congr rfl fun i hi => Finset.sum_congr rfl fun j hj => ?_
    obtain ⟨hir, hiS⟩ := Finset.mem_filter.1 hi
    obtain ⟨hjr, hjS⟩ := Finset.mem_filter.1 hj
    have hreach_i : Reach cap flow source i := (Finset.mem_filter.1 hiS).2
    have hjn : j < n := Finset.mem_range.1 hjr
    have hres : residual cap flow i j ≤ 0 := by
      by_contra hpos
      push_neg at hpos
      refine hjS (Finset.mem_filter.2 ⟨hjr, ?_⟩)
      exact Relation.ReflTransGen.tail hreach_i ⟨by rw [hcap.1.1]; exact hjn, hpos⟩
    have hlef := hle i (Finset.mem_range.1 hir) j hjn
    rw [residual] at hres
    omega
  · intro T hsT htT
    exact weak_duality hcap hA hle hcons hsrc hsT htT

end EK

namespace EK

theorem edmondsKarp_spec {cap : Mat} {n : Nat} (hcap : CapOk cap n)
    {source sink : Nat} (hsrc : source < n) (hsink : sink < n)
    (hne : source ≠ sink) :
    EkInv cap (edmondsKarp cap source sink).2.1 n source sink
      (edmondsKarp cap source sink).1 ∧
    ¬ Reach cap (edmondsKarp cap source sink).2.1 source sink ∧
    (edmondsKarp cap source sink).2.1
      = (edmondsKarp cap source sink).2.2.foldl applyRec (zeroMat n) ∧
    ReplayOk cap n source sink (zeroMat n) (edmondsKarp cap source sink).2.2 ∧
    ReplayShort cap source sink (zeroMat n) (edmondsKarp cap source sink).2.2 ∧
    (edmondsKarp cap source sink).1
      = ((edmondsKarp cap source sink).2.2.map Prod.snd).sum := by
  have hek : edmondsKarp cap source sink
      = ekLoop cap source sink (ekFuel cap source) (zeroMat n)
          (List.replicate n n) 0 [] := by
    rw [edmondsKarp, hcap.1.1]
  have hfuel : srcCapSum cap source - 0 < ((ekFuel cap source : Nat) : Int) := by
    rw [ekFuel]
    push_cast
    have := Int.self_le_toNat (srcCapSum cap source)
    omega
  obtain ⟨hinv, hreach, tail, htail, hfold, hok, hshort, hsum⟩ :=
    ekLoop_spec hcap hsrc hsink hne (ekFuel cap source) (zeroMat n)
      (List.replicate n n) 0 [] (ekInv_init hcap source sink)
      (by simp) hfuel
  rw [List.nil_append] at htail
  rw [hek]
  refine ⟨hinv, hreach, ?_, ?_, ?_, ?_⟩
  · rw [htail]
    exact hfold
  · rw [htail]
    exact hok
  · rw [htail]
    exact hshort
  · rw [htail, hsum]
    ring

end EK

/-! ## Helper lemmas for the claim theorems -/

namespace EK

theorem unreach_of_no_step {cap flow : Mat} {s t : Nat}
    (h : ∀ a b, ¬ stepRel cap flow a b) (hne : s ≠ t) : ¬ Reach cap flow s t := by
  intro hr
  rcases Relation.ReflTransGen.cases_head hr with rfl | ⟨u, hstep, -⟩
  · exact hne rfl
  · exact h _ _ hstep

theorem no_step_zeroCap {a b : Nat} : ¬ stepRel [[0,0],[0,0]] (zeroMat 2) a b := by
  rintro ⟨hb, hres⟩
  have hsq : Square ([[0,0],[0,0]] : Mat) 2 := by decide
  rcases Nat.lt_or_ge a 2 with ha | ha
  · rw [residual, getM_zeroMat] at hres
    have hb2 : b < 2 := hb
    have hz : getM [[0,0],[0,0]] a b = 0 := by
      interval_cases a <;> interval_cases b <;> decide
    omega
  · rw [residual, getM_of_oor hsq (Or.inl ha), getM_zeroMat] at hres
    omega

theorem length_le_sum {l : List Int} (h : ∀ x ∈ l, 1 ≤ x) :
    (l.length : Int) ≤ l.sum := by
  induction l with
  | nil => simp
  | cons a l ih =>
    rw [List.length_cons, List.sum_cons]
    have h1 := h a (List.mem_cons_self _ _)
    have h2 := ih fun x hx => h x (List.mem_cons_of_mem _ hx)
    push_cast
    omega

theorem antisym_foldl {n : Nat} (l : List PathRec) :
    ∀ m : Mat, Square m n → Antisym m → Antisym (l.foldl applyRec m) := by
  induction l with
  | nil => exact fun m _ hA => hA
  | cons r l ih =>
    intro m hsq hA
    rw [List.foldl_cons]
    exact ih _ (square_augment hsq _ _) (augment_antisym hsq hA _ _)

end EK

/-! ## Claim theorems -/

namespace EK

/--
C1: for every capacity matrix of non-negative integers and every in-range
source and sink with `source ≠ sink`, the flow value returned by
`edmonds_karp` equals the capacity of the minimum cut separating source and
sink: some cut achieves the returned value and no cut is smaller.
-/
theorem claim_C1_maxflow_eq_mincut (cap : Mat) (n source sink : Nat)
    (hcap : CapOk cap n) (hsrc : source < n) (hsink : sink < n)
    (hne : source ≠ sink) :
    ∃ S : Finset Nat, source ∈ S ∧ sink ∉ S ∧
      (edmondsKarp cap source sink).1 = cutCap cap n S ∧
      ∀ T : Finset Nat, source ∈ T → sink ∉ T →
        (edmondsKarp cap source sink).1 ≤ cutCap cap n T := by
  obtain ⟨⟨hsq, hA, hle, hcons, hval⟩, hreach, -, -, -, -⟩ :=
    edmondsKarp_spec hcap hsrc hsink hne
  rw [← hval]
  exact maxflow_mincut hcap hA hle hcons hsrc hreach

/-- Witness for C1 on the 4-node diamond network of the spec (max flow 10). -/
theorem claim_C1_witness :
    ∃ S : Finset Nat, 0 ∈ S ∧ 3 ∉ S ∧
      (edmondsKarp [[0,10,5,0],[0,0,0,5],[0,0,0,10],[0,0,0,0]] 0 3).1
        = cutCap [[0,10,5,0],[0,0,0,5],[0,0,0,10],[0,0,0,0]] 4 S ∧
      ∀ T : Finset Nat, 0 ∈ T → 3 ∉ T →
        (edmondsKarp [[0,10,5,0],[0,0,0,5],[0,0,0,10],[0,0,0,0]] 0 3).1
          ≤ cutCap [[0,10,5,0],[0,0,0,5],[0,0,0,10],[0,0,0,0]] 4 T :=
  claim_C1_maxflow_eq_mincut [[0,10,5,0],[0,0,0,5],[0,0,0,10],[0,0,0,0]] 4 0 3
    (by decide) (by decide) (by decide) (by decide)

/--
C2 counterexample: the claim "every entry of the returned flow matrix is
non-negative" is false — on the single-edge graph `0 → 1` with capacity 1
the returned matrix has `flow[1][0] = -1` (reverse bookkeeping), a negative
entry (at a pair whose capacity is 0, so also outside `0 ≤ flow ≤ cap`).
-/
theorem claim_C2_counterexample :
    getM (edmondsKarp [[0,1],[0,0]] 0 1).2.1 1 0 = -1 ∧
    getM [[0,1],[0,0]] 1 0 = 0 ∧
    ¬ (0 ≤ getM (edmondsKarp [[0,1],[0,0]] 0 1).2.1 1 0) := by
  decide

/--
C2 (amended): for every capacity matrix of non-negative integers and valid
source/sink pair, the returned flow matrix satisfies the two-sided bound
`-capacity[j][i] ≤ flow[i][j] ≤ capacity[i][j]` for all in-range pairs;
entries opposite to a used edge are negative (antisymmetric bookkeeping),
so not every entry is non-negative.
-/
theorem claim_C2_flow_bounds (cap : Mat) (n source sink : Nat)
    (hcap : CapOk cap n) (hsrc : source < n) (hsink : sink < n)
    (hne : source ≠ sink) :
    ∀ i, i < n → ∀ j, j < n →
      -(getM cap j i) ≤ getM (edmondsKarp cap source sink).2.1 i j ∧
      getM (edmondsKarp cap source sink).2.1 i j ≤ getM cap i j := by
  obtain ⟨⟨hsq, hA, hle, -, -⟩, -, -, -, -, -⟩ :=
    edmondsKarp_spec hcap hsrc hsink hne
  intro i hi j hj
  refine ⟨?_, hle i hi j hj⟩
  have h1 := hle j hj i hi
  have h2 := hA i j
  omega

/-- Witness for C2 (amended) on the single-edge graph, at the reverse
entry `(1,0)`. -/
theorem claim_C2_witness :
    -(getM [[0,1],[0,0]] 0 1) ≤ getM (edmondsKarp [[0,1],[0,0]] 0 1).2.1 1 0 ∧
    getM (edmondsKarp [[0,1],[0,0]] 0 1).2.1 1 0 ≤ getM [[0,1],[0,0]] 1 0 :=
  claim_C2_flow_bounds [[0,1],[0,0]] 2 0 1 (by decide) (by decide) (by decide)
    (by decide) 1 (by decide) 0 (by decide)

/--
C3: in the flow matrix returned by `edmonds_karp`, every node other than the
source and the sink conserves flow — its total (signed) inflow equals its
total (signed) outflow.
-/
theorem claim_C3_conservation (cap : Mat) (n source sink : Nat)
    (hcap : CapOk cap n) (hsrc : source < n) (hsink : sink < n)
    (hne : source ≠ sink) :
    ∀ v, v < n → v ≠ source → v ≠ sink →
      colSum (edmondsKarp cap source sink).2.1 n v
        = rowSum (edmondsKarp cap source sink).2.1 n v := by
  obtain ⟨⟨hsq, hA, hle, hcons, hval⟩, -, -, -, -, -⟩ :=
    edmondsKarp_spec hcap hsrc hsink hne
  intro v hv hvs hvt
  have h0 : rowSum (edmondsKarp cap source sink).2.1 n v = 0 := hcons v hv hvs hvt
  have hcol : colSum (edmondsKarp cap source sink).2.1 n v
      = -rowSum (edmondsKarp cap source sink).2.1 n v := by
    unfold colSum rowSum
    rw [← Finset.sum_neg_distrib]
    exact Finset.sum_congr rfl fun i _ => hA i v
  rw [hcol, h0]
  ring

/-- Witness for C3 on the diamond network, at the intermediate node `1`. -/
theorem claim_C3_witness :
    colSum (edmondsKarp [[0,10,5,0],[0,0,0,5],[0,0,0,10],[0,0,0,0]] 0 3).2.1 4 1
      = rowSum (edmondsKarp [[0,10,5,0],[0,0,0,5],[0,0,0,10],[0,0,0,0]] 0 3).2.1 4 1 :=
  claim_C3_conservation [[0,10,5,0],[0,0,0,5],[0,0,0,10],[0,0,0,0]] 4 0 3
    (by decide) (by decide) (by decide) (by decide) 1 (by decide) (by decide)
    (by decide)

/--
C4: `edmonds_karp` terminates.  Every recorded iteration pushes the path's
bottleneck residual, which is at least `1` (`ReplayOk`); the accumulated
flow is exactly the sum of the recorded bottlenecks; the number of
iterations is bounded by the total capacity out of the source; and the loop
exits only when `bfs` finds no augmenting path — on the final flow matrix
`bfs` returns `False` for every parent buffer.
-/
theorem claim_C4_termination (cap : Mat) (n source sink : Nat)
    (hcap : CapOk cap n) (hsrc : source < n) (hsink : sink < n)
    (hne : source ≠ sink) :
    ReplayOk cap n source sink (zeroMat n) (edmondsKarp cap source sink).2.2 ∧
    (∀ r ∈ (edmondsKarp cap source sink).2.2, 1 ≤ r.2) ∧
    (edmondsKarp cap source sink).1
      = ((edmondsKarp cap source sink).2.2.map Prod.snd).sum ∧
    ((edmondsKarp cap source sink).2.2.length : Int) ≤ srcCapSum cap source ∧
    ∀ parent : List Nat, parent.length = n →
      (bfs cap (edmondsKarp cap source sink).2.1 source sink parent).2 = false := by
  obtain ⟨⟨hsq, hA, hle, hcons, hval⟩, hreach, -, hok, -, hsum⟩ :=
    edmondsKarp_spec hcap hsrc hsink hne
  have hall1 : ∀ r ∈ (edmondsKarp cap source sink).2.2, (1:Int) ≤ r.2 := by
    have hgen : ∀ (l : List PathRec) (m : Mat),
        ReplayOk cap n source sink m l → ∀ r ∈ l, (1:Int) ≤ r.2 := by
      intro l
      induction l with
      | nil => intro m _ r hr; cases hr
      | cons a l ih =>
        intro m hrep r hr
        rcases List.mem_cons.1 hr with rfl | hr2
        · exact hrep.2.1
        · exact ih _ hrep.2.2.2 r hr2
    exact hgen _ _ hok
  refine ⟨hok, hall1, hsum, ?_, ?_⟩
  · have h1 : ((edmondsKarp cap source sink).2.2.length : Int)
        ≤ ((edmondsKarp cap source sink).2.2.map Prod.snd).sum := by
      have := length_le_sum (l := (edmondsKarp cap source sink).2.2.map Prod.snd)
        (by
          intro x hx
          obtain ⟨r, hr, rfl⟩ := List.mem_map.1 hx
          exact hall1 r hr)
      simpa using this
    have h2 : rowSum (edmondsKarp cap source sink).2.1 n source
        ≤ srcCapSum cap source := value_le_srcCapSum hcap hle hsrc
    omega
  · intro parent hplen
    obtain ⟨-, hbt, -⟩ := bfs_spec hcap.1 hsq hsrc hne parent hplen
    cases hfb : (bfs cap (edmondsKarp cap source sink).2.1 source sink parent).2 with
    | false => rfl
    | true =>
      exfalso
      obtain ⟨p, -, hgood, -⟩ := hbt hfb
      exact hreach (goodpath_reach hcap.1 hgood)

/-- Witness for C4 on the diamond network. -/
theorem claim_C4_witness :
    ReplayOk [[0,10,5,0],[0,0,0,5],[0,0,0,10],[0,0,0,0]] 4 0 3 (zeroMat 4)
      (edmondsKarp [[0,10,5,0],[0,0,0,5],[0,0,0,10],[0,0,0,0]] 0 3).2.2 ∧
    (∀ r ∈ (edmondsKarp [[0,10,5,0],[0,0,0,5],[0,0,0,10],[0,0,0,0]] 0 3).2.2,
      1 ≤ r.2) ∧
    (edmondsKarp [[0,10,5,0],[0,0,0,5],[0,0,0,10],[0,0,0,0]] 0 3).1
      = ((edmondsKarp [[0,10,5,0],[0,0,0,5],[0,0,0,10],[0,0,0,0]] 0 3).2.2.map
          Prod.snd).sum ∧
    (((edmondsKarp [[0,10,5,0],[0,0,0,5],[0,0,0,10],[0,0,0,0]] 0 3).2.2.length : Int)
      ≤ srcCapSum [[0,10,5,0],[0,0,0,5],[0,0,0,10],[0,0,0,0]] 0) ∧
    ∀ parent : List Nat, parent.length = 4 →
      (bfs [[0,10,5,0],[0,0,0,5],[0,0,0,10],[0,0,0,0]]
        (edmondsKarp [[0,10,5,0],[0,0,0,5],[0,0,0,10],[0,0,0,0]] 0 3).2.1
        0 3 parent).2 = false :=
  claim_C4_termination [[0,10,5,0],[0,0,0,5],[0,0,0,10],[0,0,0,0]] 4 0 3
    (by decide) (by decide) (by decide) (by decide)

/--
C5: on every iteration of `edmonds_karp`, the augmenting path found by
`bfs` and recorded in the path trace has the fewest edges among all
source-to-sink paths with positive residual capacity in the residual graph
of that iteration (`ReplayShort` replays the flow states and asserts
`Shortest` for each recorded path).
-/
theorem claim_C5_shortest_paths (cap : Mat) (n source sink : Nat)
    (hcap : CapOk cap n) (hsrc : source < n) (hsink : sink < n)
    (hne : source ≠ sink) :
    ReplayShort cap source sink (zeroMat n) (edmondsKarp cap source sink).2.2 := by
  obtain ⟨-, -, -, -, hshort, -⟩ := edmondsKarp_spec hcap hsrc hsink hne
  exact hshort

/-- Witness for C5 on the single-edge graph (one recorded augmenting path). -/
theorem claim_C5_witness :
    ReplayShort [[0,1],[0,0]] 0 1 (zeroMat 2)
      (edmondsKarp [[0,1],[0,0]] 0 1).2.2 :=
  claim_C5_shortest_paths [[0,1],[0,0]] 2 0 1
    (by decide) (by decide) (by decide) (by decide)

/--
C6: throughout the execution of `edmonds_karp` — after initialization
(`k = 0`) and after each path augmentation (prefixes of the recorded trace,
whose replay produces the returned flow matrix) — the flow matrix is
antisymmetric, `flow[i][j] = -flow[j][i]` for every pair; and such an entry
may be nonzero even where `capacity[j][i] = 0`, as on the single-edge graph.
-/
theorem claim_C6_antisymmetry (cap : Mat) (n source sink : Nat)
    (hcap : CapOk cap n) (hsrc : source < n) (hsink : sink < n)
    (hne : source ≠ sink) :
    (∀ k, Antisym (flowAfter n ((edmondsKarp cap source sink).2.2.take k))) ∧
    (edmondsKarp cap source sink).2.1
      = flowAfter n (edmondsKarp cap source sink).2.2 ∧
    (getM [[0,1],[0,0]] 1 0 = 0 ∧
      getM (edmondsKarp [[0,1],[0,0]] 0 1).2.1 1 0 ≠ 0) := by
  obtain ⟨-, -, hfold, -, -, -⟩ := edmondsKarp_spec hcap hsrc hsink hne
  refine ⟨?_, hfold, by decide, by decide⟩
  intro k
  exact antisym_foldl _ _ (square_zeroMat n) fun i j => by
    rw [getM_zeroMat, getM_zeroMat]
    ring

/-- Witness for C6 on the diamond network. -/
theorem claim_C6_witness :
    (∀ k, Antisym (flowAfter 4
      ((edmondsKarp [[0,10,5,0],[0,0,0,5],[0,0,0,10],[0,0,0,0]] 0 3).2.2.take k))) ∧
    (edmondsKarp [[0,10,5,0],[0,0,0,5],[0,0,0,10],[0,0,0,0]] 0 3).2.1
      = flowAfter 4 (edmondsKarp [[0,10,5,0],[0,0,0,5],[0,0,0,10],[0,0,0,0]] 0 3).2.2 ∧
    (getM [[0,1],[0,0]] 1 0 = 0 ∧
      getM (edmondsKarp [[0,1],[0,0]] 0 1).2.1 1 0 ≠ 0) :=
  claim_C6_antisymmetry [[0,10,5,0],[0,0,0,5],[0,0,0,10],[0,0,0,0]] 4 0 3
    (by decide) (by decide) (by decide) (by decide)

/--
C9 counterexample: the claim says an unreachable sink yields an *empty*
flow matrix; on the 2-node graph with no edges the solver instead returns
the 2×2 all-zero matrix, which is not the empty matrix.
-/
theorem claim_C9_counterexample :
    edmondsKarp [[0,0],[0,0]] 0 1 = (0, [[0,0],[0,0]], []) ∧
    ([[0,0],[0,0]] : Mat) ≠ ([] : Mat) := by
  decide

/--
C9 (amended): for every square capacity matrix with in-range source and
`source ≠ sink` in which the sink is unreachable from the source, the
solver does not fail: it returns zero flow, the `n × n` all-zero flow
matrix (not an empty one), and an empty path trace.  (On a genuinely empty
matrix any source index is out of range for Python's `visited[source] =
True`, so that case raises `IndexError` instead.)
-/
theorem claim_C9_unreachable_sink (cap : Mat) (n source sink : Nat)
    (hsq : Square cap n) (hsrc : source < n) (hne : source ≠ sink)
    (hnr : ¬ Reach cap (zeroMat n) source sink) :
    edmondsKarp cap source sink = (0, zeroMat n, []) := by
  have hek : edmondsKarp cap source sink
      = ekLoop cap source sink (ekFuel cap source) (zeroMat n)
          (List.replicate n n) 0 [] := by
    rw [edmondsKarp, hsq.1]
  rcases hbfs : bfs cap (zeroMat n) source sink (List.replicate n n) with ⟨p1, fnd⟩
  cases fnd with
  | true =>
    exfalso
    obtain ⟨-, hbt, -⟩ := bfs_spec hsq (square_zeroMat n) hsrc hne
      (List.replicate n n) (by simp)
    rw [hbfs] at hbt
    obtain ⟨p, -, hgood, -⟩ := hbt rfl
    exact hnr (goodpath_reach hsq hgood)
  | false =>
    rw [hek, ekFuel, ekLoop, hbfs]

/-- Witness for C9 (amended) on the edgeless 2-node graph. -/
theorem claim_C9_witness :
    edmondsKarp [[0,0],[0,0]] 0 1 = (0, zeroMat 2, []) := by
  have hnr : ¬ Reach [[0,0],[0,0]] (zeroMat 2) 0 1 :=
    unreach_of_no_step (fun a b => no_step_zeroCap) (by decide)
  exact claim_C9_unreachable_sink [[0,0],[0,0]] 2 0 1 (by decide) (by decide)
    (by decide) hnr

end EK

namespace Logistics

open EK

theorem foldl_bind_none (g : Mat → Nat → Option Mat) :
    ∀ l : List Nat, l.foldl (fun acc t => acc.bind fun m => g m t) none = none := by
  intro l
  induction l with
  | nil => rfl
  | cons t ts ih =>
    rw [List.foldl_cons]
    simpa using ih

theorem get?_row {m : Mat} {k i : Nat} (hsq : Square m k) (hi : i < k) :
    m.get? i = some (m.getD i []) ∧ (m.getD i []).length = k := by
  have hlen := hsq.1
  have hget : m[i]? = some m[i] := List.getElem?_eq_getElem (by omega)
  have hrowmem : m.getD i [] ∈ m := by
    rw [List.getD_eq_getElem?_getD, hget]
    simpa using List.getElem_mem _
  refine ⟨?_, hsq.2 _ hrowmem⟩
  rw [List.get?_eq_getElem?, hget, List.getD_eq_getElem?_getD, hget]
  rfl

theorem setMChecked_none_of_oor {m : Mat} {k i j : Nat} (hsq : Square m k)
    (hi : i < k) (hj : k ≤ j) (v : Int) : setMChecked m i j v = none := by
  obtain ⟨hrow, hlen⟩ := get?_row hsq hi
  simp only [setMChecked, hrow, setRowChecked, hlen]
  rw [if_neg (by omega)]

theorem setMChecked_some {m : Mat} {k i j : Nat} (hsq : Square m k)
    (hi : i < k) (hj : j < k) (v : Int) :
    ∃ m2, setMChecked m i j v = some m2 ∧ Square m2 k := by
  obtain ⟨hrow, hlen⟩ := get?_row hsq hi
  refine ⟨m.set i ((m.getD i []).set j v), ?_, ?_⟩
  · simp only [setMChecked, hrow, setRowChecked, hlen]
    rw [if_pos (by omega)]
  · exact square_setM hsq i j v

theorem square_foldl {k : Nat} (step : Mat → Nat → Mat)
    (hstep : ∀ m b, Square m k → Square (step m b) k) :
    ∀ (l : List Nat) (m : Mat), Square m k → Square (l.foldl step m) k := by
  intro l
  induction l with
  | nil => exact fun m hm => hm
  | cons b l ih =>
    intro m hm
    rw [List.foldl_cons]
    exact ih _ (hstep m b hm)

theorem terminal_fold_none {n : Nat} :
    ∀ (ts : List Nat) (acc : Option Mat),
    (∀ m, acc = some m → Square m (n + 2)) →
    (∃ t ∈ ts, n + 2 ≤ t) →
    ts.foldl (fun acc t => acc.bind fun m => setMChecked m n t 100) acc = none := by
  intro ts
  induction ts with
  | nil =>
    rintro acc hacc ⟨t, ht, -⟩
    cases ht
  | cons t ts ih =>
    rintro acc hacc ⟨t0, ht0, hoor⟩
    rw [List.foldl_cons]
    cases acc with
    | none =>
      simpa using foldl_bind_none (fun m t => setMChecked m n t 100) ts
    | some m =>
      have hm : Square m (n + 2) := hacc m rfl
      simp only [Option.some_bind]
      rcases List.mem_cons.1 ht0 with rfl | ht0s
      · rw [setMChecked_none_of_oor hm (by omega) hoor]
        exact foldl_bind_none _ _
      · by_cases htoor : n + 2 ≤ t
        · rw [setMChecked_none_of_oor hm (by omega) htoor]
          exact foldl_bind_none _ _
        · obtain ⟨m2, hm2, hm2sq⟩ :=
            setMChecked_some hm (show n < n + 2 by omega) (show t < n + 2 by omega) 100
          rw [hm2]
          exact ih (some m2) (fun m3 h3 => by cases h3; exact hm2sq) ⟨t0, ht0s, hoor⟩

theorem base_square (cap : Mat) :
    Square ((List.range cap.length).foldl
      (fun m i => (List.range cap.length).foldl
        (fun m2 j => setM m2 i j (getM cap i j)) m)
      (zeroMat (cap.length + 2))) (cap.length + 2) := by
  apply square_foldl _ ?_ _ _ (square_zeroMat _)
  intro m i hm
  apply square_foldl _ ?_ _ _ hm
  intro m2 j hm2
  exact square_setM hm2 i j _

/--
C8 counterexample: the augmentation does not fail on overlapping
source-terminal and sink-terminal sets — with the 1×1 capacity matrix and
node 0 used as both terminal and store, the extension succeeds (producing a
direct super-source → node → super-sink channel) instead of failing.
-/
theorem claim_C8_counterexample :
    (∃ x, x ∈ ([0] : List Nat) ∧ x ∈ ([0] : List Nat)) ∧
    extendCapacity [[0]] [0] [0] ≠ none := by
  refine ⟨⟨0, by decide, by decide⟩, by decide⟩

/--
C8 (amended): the super-node augmentation performs no validation of its
own.  A terminal index fails only when it is out of range for the extended
`(n+2) × (n+2)` matrix itself — the write raises an index error before any
solving — while overlapping terminal/store sets are accepted without
failure; in the actual program the wired terminal and store index sets are
fixed, in range, and disjoint, and the construction succeeds.
-/
theorem claim_C8_no_validation :
    (∀ (cap : Mat) (ts ss : List Nat), (∃ t ∈ ts, cap.length + 2 ≤ t) →
      extendCapacity cap ts ss = none) ∧
    extendCapacity [[0]] [0] [0] = some [[0,0,100],[100,0,0],[0,0,0]] ∧
    extendCapacity capacityMatrix terminalIdxs storeIdxs = some extendedCapacity ∧
    (∀ t ∈ terminalIdxs, t < nodes.length) ∧
    (∀ s ∈ storeIdxs, s < nodes.length) ∧
    (∀ t ∈ terminalIdxs, ∀ s ∈ storeIdxs, t ≠ s) := by
  refine ⟨?_, by decide, by decide, by decide, by decide, by decide⟩
  intro cap ts ss h
  rw [extendCapacity]
  have htf := terminal_fold_none (n := cap.length) ts
    (some ((List.range cap.length).foldl
      (fun m i => (List.range cap.length).foldl
        (fun m2 j => setM m2 i j (getM cap i j)) m)
      (zeroMat (cap.length + 2))))
    (fun m hm => by cases hm; exact base_square cap) h
  rw [htf]
  exact foldl_bind_none _ _

end Logistics

namespace Logistics

open EK

/--
C7 counterexample: each synthetic edge is wired with capacity 100, but the
sum of all designated terminal/destination edge capacities in the network
is 315 (115 terminal-side plus 200 store-side), so the synthetic capacity
does not exceed that sum as the claim requires.
-/
theorem claim_C7_counterexample :
    getM extendedCapacity nodes.length (nodeIdx "Термінал 1") = 100 ∧
    designatedCapSum = 315 ∧
    ¬ (designatedCapSum
        < getM extendedCapacity nodes.length (nodeIdx "Термінал 1")) := by
  decide

/--
C7 (amended): in the augmented capacity matrix built for the solve, all
original `N×N` entries are copied unchanged, and every synthetic edge has
capacity 100, which is at least the total outgoing capacity of the terminal
it feeds and at least the total incoming capacity of the store it drains —
enough for the synthetic edges never to bottleneck the solution — but not
larger than the sum (315) of all designated terminal/destination edge
capacities.
-/
theorem claim_C7_synthetic_capacities :
    (∀ i, i < nodes.length → ∀ j, j < nodes.length →
      getM extendedCapacity i j = getM capacityMatrix i j) ∧
    (∀ t ∈ terminalIdxs, getM extendedCapacity nodes.length t = 100 ∧
      ((List.range nodes.length).map fun j => getM capacityMatrix t j).sum ≤ 100) ∧
    (∀ s ∈ storeIdxs, getM extendedCapacity s (nodes.length + 1) = 100 ∧
      ((List.range nodes.length).map fun i => getM capacityMatrix i s).sum ≤ 100) := by
  decide

theorem sum_map_filter (l : List Nat) (p : Nat → Bool) (f : Nat → Int) :
    ((l.filter p).map f).sum = (l.map fun i => if p i then f i else 0).sum := by
  induction l with
  | nil => rfl
  | cons a l ih =>
    cases hpa : p a with
    | true => simp [List.filter_cons, hpa, ih]
    | false => simp [List.filter_cons, hpa, ih]

theorem ite_bne (w i : Nat) (f : Nat → Int) :
    (if (i != w) = true then f i else 0) = if i = w then 0 else f i := by
  by_cases h : i = w
  · simp [h]
  · simp [h]

theorem sumInto_eq_spec (m : Mat) (k w : Nat) :
    sumInto m k w = specInflow m k w := by
  rw [sumInto, sum_map_filter, list_range_sum, specInflow]
  rw [Finset.sum_congr rfl fun i _ => ite_bne w i fun i => getM m i w]
  by_cases hw : w < k
  · rw [← Finset.sum_erase_add (Finset.range k)
      (fun i => if i = w then 0 else getM m i w) (Finset.mem_range.2 hw)]
    rw [if_pos rfl, add_zero]
    refine Finset.sum_congr rfl fun i hi => ?_
    rw [if_neg (Finset.mem_erase.1 hi).1]
  · rw [Finset.erase_eq_of_not_mem (by simp [hw])]
    refine Finset.sum_congr rfl fun i hi => ?_
    rw [if_neg]
    intro h
    exact hw (h ▸ Finset.mem_range.1 hi)

theorem sumOutOf_eq_spec (m : Mat) (k w : Nat) :
    sumOutOf m k w = specOutflow m k w := by
  rw [sumOutOf, sum_map_filter, list_range_sum, specOutflow]
  rw [Finset.sum_congr rfl fun j _ => ite_bne w j fun j => getM m w j]
  by_cases hw : w < k
  · rw [← Finset.sum_erase_add (Finset.range k)
      (fun j => if j = w then 0 else getM m w j) (Finset.mem_range.2 hw)]
    rw [if_pos rfl, add_zero]
    refine Finset.sum_congr rfl fun j hj => ?_
    rw [if_neg (Finset.mem_erase.1 hj).1]
  · rw [Finset.erase_eq_of_not_mem (by simp [hw])]
    refine Finset.sum_congr rfl fun j hj => ?_
    rw [if_neg]
    intro h
    exact hw (h ▸ Finset.mem_range.1 hj)

theorem sumInto_nonneg {cap : Mat} {k w : Nat}
    (hcap : ∀ i, i < k → ∀ j, j < k → (0:Int) ≤ getM cap i j) (hw : w < k) :
    0 ≤ sumInto cap k w := by
  rw [sumInto]
  apply List.sum_nonneg
  intro x hx
  obtain ⟨i, hi, rfl⟩ := List.mem_map.1 hx
  have hik : i < k := List.mem_range.1 (List.mem_of_mem_filter hi)
  exact hcap i hik w hw

theorem sumOutOf_nonneg {cap : Mat} {k w : Nat}
    (hcap : ∀ i, i < k → ∀ j, j < k → (0:Int) ≤ getM cap i j) (hw : w < k) :
    0 ≤ sumOutOf cap k w := by
  rw [sumOutOf]
  apply List.sum_nonneg
  intro x hx
  obtain ⟨j, hj, rfl⟩ := List.mem_map.1 hx
  have hjk : j < k := List.mem_range.1 (List.mem_of_mem_filter hj)
  exact hcap w hw j hjk

theorem ite_pos_eq_ite_zero {c : Int} (x : Int) (hc : 0 ≤ c) :
    (if 0 < c then x else 0) = if c = 0 then 0 else x := by
  by_cases h : c = 0
  · rw [if_neg (by omega), if_pos h]
  · rw [if_pos (by omega), if_neg h]

/--
C10: for every warehouse, the per-hub record of `analyze_network` has
inflow equal to the sum of flow into the node from all other nodes, outflow
the sum of flow out, in/out-capacity the corresponding capacity sums, and
utilization percentages `round(inflow / in_capacity * 100)` (Python's
banker's rounding, modelled on exact rationals), defined as `0` when the
corresponding capacity sum is `0`.
-/
theorem claim_C10_warehouse_records (cap flow : Mat)
    (hcap : ∀ i, i < nodes.length → ∀ j, j < nodes.length →
      (0:Int) ≤ getM cap i j) :
    ∀ r ∈ warehouseUtilization cap flow,
      r.2.inflow = specInflow flow nodes.length (nodeIdx r.1) ∧
      r.2.outflow = specOutflow flow nodes.length (nodeIdx r.1) ∧
      r.2.in_capacity = specInflow cap nodes.length (nodeIdx r.1) ∧
      r.2.out_capacity = specOutflow cap nodes.length (nodeIdx r.1) ∧
      r.2.in_utilization = specUtilization r.2.inflow r.2.in_capacity ∧
      r.2.out_utilization = specUtilization r.2.outflow r.2.out_capacity := by
  intro r hr
  obtain ⟨w, hw, rfl⟩ := List.mem_map.1 hr
  have hwlt : nodeIdx w < nodes.length := by
    fin_cases hw <;> decide
  have hinn : 0 ≤ sumInto cap nodes.length (nodeIdx w) := sumInto_nonneg hcap hwlt
  have houtn : 0 ≤ sumOutOf cap nodes.length (nodeIdx w) := sumOutOf_nonneg hcap hwlt
  refine ⟨sumInto_eq_spec _ _ _, sumOutOf_eq_spec _ _ _, sumInto_eq_spec _ _ _,
    sumOutOf_eq_spec _ _ _, ?_, ?_⟩
  · show (if 0 < sumInto cap nodes.length (nodeIdx w) then _ else 0) = _
    rw [specUtilization, ite_pos_eq_ite_zero _ hinn]
    rfl
  · show (if 0 < sumOutOf cap nodes.length (nodeIdx w) then _ else 0) = _
    rw [specUtilization, ite_pos_eq_ite_zero _ houtn]
    rfl

/-- Witness for C10 on the program's own capacity matrix (used as both
capacity and flow argument), at the record of the first warehouse. -/
theorem claim_C10_witness :
    ("Склад 1", warehouseRecord capacityMatrix capacityMatrix nodes.length
        (nodeIdx "Склад 1")).2.inflow
      = specInflow capacityMatrix nodes.length
          (nodeIdx ("Склад 1", warehouseRecord capacityMatrix capacityMatrix
            nodes.length (nodeIdx "Склад 1")).1) ∧
    ("Склад 1", warehouseRecord capacityMatrix capacityMatrix nodes.length
        (nodeIdx "Склад 1")).2.outflow
      = specOutflow capacityMatrix nodes.length
          (nodeIdx ("Склад 1", warehouseRecord capacityMatrix capacityMatrix
            nodes.length (nodeIdx "Склад 1")).1) ∧
    ("Склад 1", warehouseRecord capacityMatrix capacityMatrix nodes.length
        (nodeIdx "Склад 1")).2.in_capacity
      = specInflow capacityMatrix nodes.length
          (nodeIdx ("Склад 1", warehouseRecord capacityMatrix capacityMatrix
            nodes.length (nodeIdx "Склад 1")).1) ∧
    ("Склад 1", warehouseRecord capacityMatrix capacityMatrix nodes.length
        (nodeIdx "Склад 1")).2.out_capacity
      = specOutflow capacityMatrix nodes.length
          (nodeIdx ("Склад 1", warehouseRecord capacityMatrix capacityMatrix
            nodes.length (nodeIdx "Склад 1")).1) ∧
    ("Склад 1", warehouseRecord capacityMatrix capacityMatrix nodes.length
        (nodeIdx "Склад 1")).2.in_utilization
      = specUtilization
          ("Склад 1", warehouseRecord capacityMatrix capacityMatrix nodes.length
            (nodeIdx "Склад 1")).2.inflow
          ("Склад 1", warehouseRecord capacityMatrix capacityMatrix nodes.length
            (nodeIdx "Склад 1")).2.in_capacity ∧
    ("Склад 1", warehouseRecord capacityMatrix capacityMatrix nodes.length
        (nodeIdx "Склад 1")).2.out_utilization
      = specUtilization
          ("Склад 1", warehouseRecord capacityMatrix capacityMatrix nodes.length
            (nodeIdx "Склад 1")).2.outflow
          ("Склад 1", warehouseRecord capacityMatrix capacityMatrix nodes.length
            (nodeIdx "Склад 1")).2.out_capacity :=
  claim_C10_warehouse_records capacityMatrix capacityMatrix (by decide)
    ("Склад 1", warehouseRecord capacityMatrix capacityMatrix nodes.length
      (nodeIdx "Склад 1")) (List.mem_map.mpr ⟨"Склад 1", by decide, rfl⟩)

end Logistics
